import Mathlib

/-!
# suprac: the scanning engine of `src/main.cpp`

A shallow embedding of the `Cursor` and of the tokenizer loop of `main`.

* The source buffer (`std::string src`) is a `List Char`; one `Char` stands for one
  `char` of the buffer.  The character classes of `<cctype>` are the ones of the
  "C" locale.
* `std::size_t` offsets (`index`, `start`, the `string_view` size) are `Nat`: they never
  exceed the size of the buffer, which is itself a `std::size_t`.
* `int` values (`line`, `col`, the counter `i`) are `Int` kept in the 32-bit two's
  complement range: `x++` is `wrapInt32 (x + 1)`, which goes from `2147483647` to
  `-2147483648`.
* `std::string_view(&src[start], n)` is the pair `start`, `len` of a `Token`.
* Loops that the C++ code does not bound (`while (cur ...)`) take a `fuel` argument and
  answer `none` when it runs out; `Cursor::skip` is bounded by its argument `n`.
-/

namespace Suprac

/-! ## Characters -/

/-- The sentinel `'\0'` that `Cursor::peek` answers outside the buffer. -/
def NUL : Char := Char.ofNat 0
/-- The character `'\n'`. -/
def NEWLINE : Char := Char.ofNat 10
/-- The character `'"'`. -/
def DQUOTE : Char := Char.ofNat 34
/-- The single quote character. -/
def SQUOTE : Char := Char.ofNat 39
/-- The character `'\\'`. -/
def BACKSLASH : Char := Char.ofNat 92

/-- The `isblank` of `<cctype>`: space or horizontal tab. -/
def isblank (c : Char) : Bool := c == ' ' || c == Char.ofNat 9

/-- The `isdigit` of `<cctype>`. -/
def isdigit (c : Char) : Bool := decide ('0' ≤ c) && decide (c ≤ '9')

/-- The `isxdigit` of `<cctype>`. -/
def isxdigit (c : Char) : Bool :=
  isdigit c || (decide ('a' ≤ c) && decide (c ≤ 'f')) || (decide ('A' ≤ c) && decide (c ≤ 'F'))

/-- The lambda `isodigit` of the numeric branch: `c >= '0' && c <= '7'`. -/
def isodigit (c : Char) : Bool := decide ('0' ≤ c) && decide (c ≤ '7')

/-- The `tolower` of `<cctype>`. -/
def tolower (c : Char) : Char :=
  if 'A' ≤ c ∧ c ≤ 'Z' then Char.ofNat (c.toNat + 32) else c

/-! ## Machine integers -/

/-- The value of a 32-bit two's complement `int` that holds `x` modulo `2^32`. -/
def wrapInt32 (x : Int) : Int :=
  (x + 2147483648) % 4294967296 - 2147483648

/-! ## Tokens -/

/-- The enumeration `token_kind` (`TOKEN_KIND_LIST`). -/
inductive token_kind where
  | Comment
  | String
  | Char
  | MultiCharLiteral
  | Number
  | Id
  | Op
  | Punct
  | Unknown
  deriving DecidableEq, Repr

/-- The record `Token`; `start` and `len` are the `std::string_view` into the buffer
(`&src[start]` and its size), `line` and `col` are `int`. -/
structure Token where
  kind : token_kind
  start : Nat
  len : Nat
  line : Int
  col : Int
  deriving DecidableEq, Repr

/-- The characters a token's `text` views. -/
def Token.text (code : List Char) (t : Token) : List Char :=
  (code.drop t.start).take t.len

/-! ## Cursor -/

/-- The position state of `Cursor`: `std::size_t index`, `int line`, `int col`; the borrowed
buffer `code` is passed to every operation. -/
structure Cursor where
  index : Nat
  line : Int
  col : Int
  deriving DecidableEq, Repr

/-- The state `Cursor cur = {src}`: `index = 0`, `line = 1`, `col = 1`. -/
def Cursor.init : Cursor := { index := 0, line := 1, col := 1 }

/-- The method `Cursor::eof`: `index >= code.size()`. -/
def Cursor.eof (code : List Char) (cur : Cursor) : Bool :=
  decide (code.length ≤ cur.index)

/-- The method `Cursor::peek`. The source adds `index + offset` in `std::size_t`; its callers
pass the offsets 0 and 1 only, at an `index` that is at most the size of the buffer, where
that sum does not wrap, so it is taken in `Nat`. -/
def Cursor.peek (code : List Char) (cur : Cursor) (offset : Nat) : Char :=
  let i := cur.index + offset
  if h : i < code.length then code[i] else NUL

/-- The method `Cursor::next`: the character returned and the cursor afterwards. -/
def Cursor.next (code : List Char) (cur : Cursor) : Char × Cursor :=
  let c := cur.peek code 0
  if c = NUL then (c, cur)
  else if c = NEWLINE then
    (c, { index := cur.index + 1, line := wrapInt32 (cur.line + 1), col := 1 })
  else (c, { index := cur.index + 1, line := cur.line, col := wrapInt32 (cur.col + 1) })

/-- The loop of `Cursor::skip`, with the local `last`. -/
def Cursor.skipLoop (code : List Char) : Nat → Char → Cursor → Char × Cursor
  | 0, last, cur => (last, cur)
  | n + 1, last, cur =>
    if cur.peek code 0 ≠ NUL then
      let r := cur.next code
      Cursor.skipLoop code n r.1 r.2
    else (last, cur)

/-- The method `Cursor::skip`. -/
def Cursor.skip (code : List Char) (n : Nat) (cur : Cursor) : Char × Cursor :=
  Cursor.skipLoop code n NUL cur

/-! ## The tokenizer loop of `main` -/

/-- A loop `while (cond) cur.next();`. -/
def whileNext (code : List Char) (cond : Cursor → Bool) : Nat → Cursor → Option Cursor
  | 0, _ => none
  | fuel + 1, cur =>
    if cond cur then whileNext code cond fuel (cur.next code).2 else some cur

/-- The condition `cur && p(cur.peek())`. -/
def peekIs (code : List Char) (p : Char → Bool) (cur : Cursor) : Bool :=
  !cur.eof code && p (cur.peek code 0)

/-- The condition `cur && !(cur.peek() == '*' && cur.peek(1) == '/')`. -/
def notCloser (code : List Char) (cur : Cursor) : Bool :=
  !cur.eof code && !(cur.peek code 0 == '*' && cur.peek code 1 == '/')

/-- The loop of the string literal branch. -/
def stringLoop (code : List Char) : Nat → Cursor → Option Cursor
  | 0, _ => none
  | fuel + 1, cur =>
    if cur.eof code then some cur
    else if cur.peek code 0 = BACKSLASH then stringLoop code fuel (cur.skip code 2).2
    else if cur.peek code 0 = DQUOTE then some (cur.next code).2
    else stringLoop code fuel (cur.next code).2

/-- The locals of the char literal loop: the cursor, `int i` and `bool escape`. -/
structure CharScan where
  cur : Cursor
  i : Int
  escape : Bool
  deriving DecidableEq, Repr

/-- The loop of the char literal branch. -/
def charLoop (code : List Char) : Nat → CharScan → Option CharScan
  | 0, _ => none
  | fuel + 1, s =>
    if s.cur.eof code then some s
    else if s.cur.peek code 0 = BACKSLASH then
      charLoop code fuel
        { cur := (s.cur.skip code 2).2, i := wrapInt32 (s.i + 1), escape := true }
    else if s.cur.peek code 0 = SQUOTE then
      some { cur := (s.cur.next code).2, i := s.i, escape := s.escape }
    else
      charLoop code fuel
        { cur := (s.cur.next code).2, i := wrapInt32 (s.i + 1), escape := s.escape }

/-- The cursor and the vector `tokens` of `main`. -/
structure State where
  cur : Cursor
  tokens : List Token
  deriving DecidableEq, Repr

/-- The state before the first iteration. -/
def State.init : State := { cur := Cursor.init, tokens := [] }

/-- The statement `tokens.emplace_back(kind, std::string_view(&src[start], cur.index - start),
line, col)`. -/
def emit (tokens : List Token) (kind : token_kind) (start : Nat) (line col : Int)
    (cur : Cursor) : State :=
  { cur := cur
    tokens := tokens ++
      [{ kind := kind, start := start, len := cur.index - start, line := line, col := col }] }

/-- The tail shared by the three numeric sub-branches: `Unknown` over the non-blank run when
the digits are not followed by a blank, `Number` otherwise. -/
def numberTail (code : List Char) (fuel : Nat) (tokens : List Token) (start : Nat)
    (line col : Int) (cur : Cursor) : Option State :=
  if !isblank (cur.peek code 0) then
    (whileNext code (peekIs code (fun c => !isblank c)) fuel cur).map
      (emit tokens token_kind.Unknown start line col)
  else some (emit tokens token_kind.Number start line col cur)

/-- One iteration of the body of `while (cur)`. -/
def loopBody (code : List Char) (fuel : Nat) (st : State) : Option State :=
  let cur := st.cur
  let tokens := st.tokens
  let line := cur.line
  let col := cur.col
  let c := cur.peek code 0
  if isblank c then
    (whileNext code (peekIs code isblank) fuel cur).map (fun k => { cur := k, tokens := tokens })
  else if c = '/' ∧ cur.peek code 1 = '/' then
    let start := cur.index
    (whileNext code (peekIs code (fun d => d != NEWLINE)) fuel cur).map
      (emit tokens token_kind.Comment start line col)
  else if c = '/' ∧ cur.peek code 1 = '*' then
    let start := cur.index
    (whileNext code (notCloser code) fuel (cur.skip code 2).2).map (fun k =>
      emit tokens token_kind.Comment start line col
        (if !k.eof code then (k.skip code 2).2 else k))
  else if c = DQUOTE then
    let start := cur.index
    (stringLoop code fuel (cur.next code).2).map (emit tokens token_kind.String start line col)
  else if c = SQUOTE then
    let start := cur.index
    (charLoop code fuel { cur := (cur.next code).2, i := 0, escape := false }).map (fun s =>
      emit tokens
        (if s.i ≤ 1 ∨ s.escape = true then token_kind.Char else token_kind.MultiCharLiteral)
        start line col s.cur)
  else if isdigit c then
    let start := cur.index
    let hexoct := cur.peek code 0 == '0'
    let cur := (cur.next code).2
    if hexoct && tolower (cur.peek code 0) == 'x' then
      let cur := (cur.next code).2
      (whileNext code (peekIs code isxdigit) fuel cur).bind
        (numberTail code fuel tokens start line col)
    else if hexoct then
      (whileNext code (peekIs code isodigit) fuel cur).bind
        (numberTail code fuel tokens start line col)
    else
      (whileNext code (peekIs code isdigit) fuel cur).bind
        (numberTail code fuel tokens start line col)
  else some st

/-- The loop `while (cur)`: `inner` bounds each loop inside an iteration, the second
argument bounds the iterations; `none` when a bound is reached. -/
def mainLoop (code : List Char) (inner : Nat) : Nat → State → Option State
  | 0, _ => none
  | fuel + 1, st =>
    if st.cur.eof code then some st
    else (loopBody code inner st).bind (mainLoop code inner fuel)

/-- The token sequence `main` has when its loop ends. -/
def tokenize (code : List Char) (fuel : Nat) : Option (List Token) :=
  (mainLoop code fuel fuel State.init).map State.tokens

/-- The state after at most `n` iterations of `while (cur)`. -/
def runN (code : List Char) (inner : Nat) : Nat → State → Option State
  | 0, st => some st
  | n + 1, st =>
    if st.cur.eof code then some st
    else (loopBody code inner st).bind (runN code inner n)

/-! ## Specification vocabulary -/

/-- Line of offset `off`: 1 plus the number of newline characters before it. -/
def lineAt (code : List Char) (off : Nat) : Nat :=
  1 + (code.take off).count NEWLINE

/-- Column of offset `off`: 1 plus the number of characters between the last newline before
`off` (or the buffer start) and `off`. -/
def colAt (code : List Char) (off : Nat) : Nat :=
  1 + ((code.take off).reverse.takeWhile (fun c => c != NEWLINE)).length

/-- The cursor is inside the buffer and its `line`, `col` are those of its `index`, as
32-bit values. -/
def Cursor.WF (code : List Char) (cur : Cursor) : Prop :=
  cur.index ≤ code.length ∧ cur.line = wrapInt32 (lineAt code cur.index) ∧
    cur.col = wrapInt32 (colAt code cur.index)

/-- Going from `a` to `b` never moves the index back and keeps the cursor well formed. -/
def Adv (code : List Char) (a b : Cursor) : Prop :=
  a.index ≤ b.index ∧ (a.WF code → b.WF code)

/-- The iteration appended one token that starts at the old index, carries the old line and
column, and ends at the new index, which is further on. -/
def Emits (code : List Char) (st st' : State) : Prop :=
  ∃ kind k, Adv code st.cur k ∧ st.cur.index < k.index ∧
    st' = emit st.tokens kind st.cur.index st.cur.line st.cur.col k

/-- The iteration appended no token and moved the cursor over blanks only (or not at all). -/
def Skips (code : List Char) (st st' : State) : Prop :=
  st'.tokens = st.tokens ∧ Adv code st.cur st'.cur ∧
    ∀ i, st.cur.index ≤ i → i < st'.cur.index → isblank (code.getD i NUL) = true

/-- The characters of `code` at the offsets `a ≤ i < b`. -/
def slice (code : List Char) (a b : Nat) : List Char :=
  (code.drop a).take (b - a)

/-- From offset `pos` to offset `idx` the buffer is tiled by the spans of `toks`, in order,
with nothing but blanks (space, tab) between one span and the next, before the first
and after the last. -/
def Tiles (code : List Char) : List Token → Nat → Nat → Prop
  | [], pos, idx => pos ≤ idx ∧ ∀ i, pos ≤ i → i < idx → isblank (code.getD i NUL) = true
  | t :: ts, pos, idx =>
    pos ≤ t.start ∧ (∀ i, pos ≤ i → i < t.start → isblank (code.getD i NUL) = true) ∧
      Tiles code ts (t.start + t.len) idx

/-- The blank run before each token, then the token's text, and the blank run after the
last token, concatenated from offset `pos` to offset `idx`. -/
def rebuild (code : List Char) : List Token → Nat → Nat → List Char
  | [], pos, idx => slice code pos idx
  | t :: ts, pos, idx =>
    slice code pos t.start ++ (t.text code ++ rebuild code ts (t.start + t.len) idx)

/-- The invariant of the loop `while (cur)`. -/
def Inv (code : List Char) (st : State) : Prop :=
  st.cur.WF code ∧ Tiles code st.tokens 0 st.cur.index ∧
    ∀ t ∈ st.tokens, 0 < t.len ∧ t.line = wrapInt32 (lineAt code t.start) ∧
      t.col = wrapInt32 (colAt code t.start)

/-- The sample buffer of the `DEBUG` build of `main` (the raw string literal). -/
def debugSrc : List Char :=
  [NEWLINE] ++ "//Hello world".toList ++ [NEWLINE] ++ "/* commment */".toList ++ [NEWLINE]
    ++ [DQUOTE] ++ "This is a string".toList ++ [DQUOTE, NEWLINE]
    ++ [SQUOTE] ++ "chars".toList ++ [SQUOTE, NEWLINE]
    ++ [SQUOTE, 'c', SQUOTE, NEWLINE]
    ++ [SQUOTE, BACKSLASH, '1', '3', SQUOTE, NEWLINE, NEWLINE]

/-- The sample buffer of the end-to-end scenario: six lines, each ended by a newline. -/
def sampleBuffer : List Char :=
  "//Hello world".toList ++ [NEWLINE] ++ "/* comment */".toList ++ [NEWLINE]
    ++ [DQUOTE] ++ "string".toList ++ [DQUOTE, NEWLINE]
    ++ [SQUOTE] ++ "chars".toList ++ [SQUOTE, NEWLINE]
    ++ [SQUOTE, 'c', SQUOTE, NEWLINE]
    ++ [SQUOTE, BACKSLASH, '1', '3', SQUOTE, NEWLINE]

/-- No branch of the loop body takes the character under the cursor. -/
def noBranch (code : List Char) (cur : Cursor) : Bool :=
  let c := cur.peek code 0
  !isblank c && !(c == '/' && cur.peek code 1 == '/') && !(c == '/' && cur.peek code 1 == '*')
    && c != DQUOTE && c != SQUOTE && !isdigit c

/-- A literal: the quote `q`, the body, the quote `q`. -/
def quoted (q : Char) (body : List Char) : List Char :=
  q :: body ++ [q]

/-- One logical unit of the body of a literal closed by `q`: one character other than `q`
and the backslash, or a backslash together with the one character after it. -/
def isUnit (q : Char) : List Char → Bool
  | [c] => c != q && c != BACKSLASH
  | [b, _] => b == BACKSLASH
  | _ => false

/-- The unit is a backslash escape. -/
def isEscape (u : List Char) : Bool :=
  u.length == 2

/-- The length of the digit run at the start of `code`: the prefix `0x`/`0X` and the hex
digits after it, or a leading `0` and the octal digits after it, or the first digit and the
decimal digits after it. -/
def digitRunLength (code : List Char) : Nat :=
  match code with
  | [] => 0
  | c :: rest =>
    if c = '0' then
      match rest with
      | [] => 1
      | x :: rest' =>
        if x = 'x' ∨ x = 'X' then 2 + (rest'.takeWhile isxdigit).length
        else 1 + (rest.takeWhile isodigit).length
    else 1 + (rest.takeWhile isdigit).length

/-- The maximal run of non-blank characters at the start of `code`. -/
def nonBlankRun (code : List Char) : List Char :=
  code.takeWhile (fun c => !isblank c)

/-! ## Sample buffers -/

/-- A char literal, two blanks, a number and a blank: `'a'  42 `. -/
def tileSample : List Char :=
  [SQUOTE, 'a', SQUOTE, ' ', ' ', '4', '2', ' ']

/-- A string, a tab, a string: `"x"` tab `"y"`. -/
def orderSample : List Char :=
  [DQUOTE, 'x', DQUOTE, Char.ofNat 9, DQUOTE, 'y', DQUOTE]

/-- A block comment holding a newline, a blank and a char literal. -/
def positionSample : List Char :=
  ['/', '*', NEWLINE, '*', '/', ' ', SQUOTE, 'a', SQUOTE]

/-- The units of the body of the string literal `"a\"b"`. -/
def escapedQuoteUnits : List (List Char) :=
  [['a'], [BACKSLASH, DQUOTE], ['b']]

/-- The units of the body of the char literal `'\13'`, split by the scanner's rule. -/
def octalEscapeUnits : List (List Char) :=
  [[BACKSLASH, '1'], ['3']]

/-- The buffer `123abc ` (with the trailing space). -/
def gluedDecimal : List Char :=
  "123abc ".toList

/-- The buffer `0x1G ` (with the trailing space). -/
def gluedHex : List Char :=
  "0x1G ".toList

/-! ## Cursor calls, integer lexemes and comment closers -/

/-- A call of one of the methods `peek`, `next`, `skip` of the cursor. -/
inductive CursorCall where
  | peek (offset : Nat)
  | next
  | skip (n : Nat)
  deriving DecidableEq, Repr

/-- The cursor after a call (`peek` is `const` and leaves it as it is). -/
def CursorCall.run (code : List Char) : CursorCall → Cursor → Cursor
  | CursorCall.peek _, cur => cur
  | CursorCall.next, cur => (cur.next code).2
  | CursorCall.skip n, cur => (cur.skip code n).2

/-- The cursor reached from the initial state by a sequence of calls. -/
def afterCalls (code : List Char) (calls : List CursorCall) : Cursor :=
  calls.foldl (fun cur call => call.run code cur) Cursor.init

/-- The number of characters from offset `i` up to the first NUL character or the end of
the buffer. -/
def nonNulRun (code : List Char) (i : Nat) : Nat :=
  ((code.drop i).takeWhile (fun c => c != NUL)).length

/-- A buffer with a NUL character in front of a letter. -/
def nulSample : List Char :=
  [NUL, 'a']

/-- The buffer `ab`, newline, `c`. -/
def twoLines : List Char :=
  ['a', 'b', NEWLINE, 'c']

/-- A well-formed integer lexeme: `0x` or `0X` and one or more hex digits, or `0` and zero
or more octal digits, or a run of decimal digits that does not start with `0`. -/
def isIntLexeme (lex : List Char) : Bool :=
  match lex with
  | [] => false
  | c :: rest =>
    if c = '0' then
      match rest with
      | [] => true
      | x :: rest' =>
        if x = 'x' ∨ x = 'X' then !rest'.isEmpty && rest'.all isxdigit
        else rest.all isodigit
    else isdigit c && rest.all isdigit

/-- The two characters `*/` stand at offset `i` of the buffer. -/
def isCloserAt (code : List Char) (i : Nat) : Prop :=
  code[i]? = some '*' ∧ code[i + 1]? = some '/'

/-- The offset of the first `*/` in a list of characters, if there is one. -/
def closerOffset : List Char → Option Nat
  | [] => none
  | c :: rest =>
    if c = '*' ∧ rest.head? = some '/' then some 0
    else (closerOffset rest).map (fun n => n + 1)

/-- The buffer `0x1F ` (with the trailing space). -/
def hexSample : List Char :=
  "0x1F ".toList

/-- The buffer `017 ` (with the trailing space). -/
def octalSample : List Char :=
  "017 ".toList

/-- The buffer `// line`, newline, `next`. -/
def lineCommentSample : List Char :=
  ['/', '/', ' ', 'l', 'i', 'n', 'e', NEWLINE, 'n', 'e', 'x', 't']

/-- A block comment whose opener is followed by `/`, closed further on, then a blank. -/
def blockCommentSample : List Char :=
  ['/', '*', '/', ' ', 'a', ' ', '*', '/', ' ']

/-- An opened block comment that is never closed. -/
def openCommentSample : List Char :=
  ['/', '*', '/', ' ', 'a']

/-! ## Lemmas -/

theorem wrapInt32_succ (x : Int) : wrapInt32 (wrapInt32 x + 1) = wrapInt32 (x + 1) := by
  unfold wrapInt32
  omega

theorem wrapInt32_of_le (n : Nat) (h : n ≤ 2147483647) : wrapInt32 n = n := by
  unfold wrapInt32
  omega

theorem wrapInt32_one : wrapInt32 1 = 1 := by
  decide

theorem wrapInt32_range (x : Int) :
    -2147483648 ≤ wrapInt32 x ∧ wrapInt32 x ≤ 2147483647 := by
  unfold wrapInt32
  omega

theorem Adv.refl (code : List Char) (a : Cursor) : Adv code a a :=
  ⟨Nat.le_refl _, id⟩

theorem Adv.trans {code : List Char} {a b c : Cursor} (h₁ : Adv code a b) (h₂ : Adv code b c) :
    Adv code a c :=
  ⟨Nat.le_trans h₁.1 h₂.1, fun h => h₂.2 (h₁.2 h)⟩

theorem peek_eq_getD (code : List Char) (cur : Cursor) (k : Nat) :
    cur.peek code k = code.getD (cur.index + k) NUL := by
  unfold Cursor.peek
  by_cases h : cur.index + k < code.length
  · simp [h, List.getD_eq_getElem]
  · rw [List.getD_eq_default _ _ (Nat.le_of_not_lt h)]; simp [h]

theorem peek_ne_NUL_lt {code : List Char} {cur : Cursor} {k : Nat}
    (h : cur.peek code k ≠ NUL) : cur.index + k < code.length := by
  unfold Cursor.peek at h
  by_contra hlt
  simp [hlt] at h

theorem lineAt_succ (code : List Char) (i : Nat) (h : i < code.length) :
    lineAt code (i + 1) = lineAt code i + (if code[i] = NEWLINE then 1 else 0) := by
  have ht : code.take (i + 1) = code.take i ++ [code[i]] := by
    rw [List.take_succ, List.getElem?_eq_getElem h]; rfl
  unfold lineAt
  rw [ht, List.count_append, List.count_singleton]
  by_cases hc : code[i] = NEWLINE
  · simp [hc]; omega
  · have hc2 : (code[i] == NEWLINE) = false := by simpa using hc
    simp [hc, hc2]

theorem colAt_succ (code : List Char) (i : Nat) (h : i < code.length) :
    colAt code (i + 1) = if code[i] = NEWLINE then 1 else colAt code i + 1 := by
  have ht : code.take (i + 1) = code.take i ++ [code[i]] := by
    rw [List.take_succ, List.getElem?_eq_getElem h]; rfl
  unfold colAt
  rw [ht, List.reverse_append, List.reverse_singleton, List.singleton_append,
    List.takeWhile_cons]
  by_cases hc : code[i] = NEWLINE
  · simp [hc]
  · simp [hc]; omega

theorem next_of_ne_NUL {code : List Char} {cur : Cursor} (h : cur.peek code 0 ≠ NUL) :
    ((cur.next code).2.index = cur.index + 1) ∧ (cur.WF code → (cur.next code).2.WF code) := by
  have hlt : cur.index < code.length := by simpa using peek_ne_NUL_lt h
  have hp : cur.peek code 0 = code[cur.index] := by
    unfold Cursor.peek; simp [hlt]
  unfold Cursor.next
  simp only [h, if_false]
  constructor
  · split <;> rfl
  · rintro ⟨_, hl, hc⟩
    split
    · rename_i hn
      have hn' : code[cur.index] = NEWLINE := by rw [← hp]; exact hn
      refine ⟨hlt, ?_, ?_⟩
      · show wrapInt32 (cur.line + 1) = wrapInt32 (lineAt code (cur.index + 1))
        rw [lineAt_succ code _ hlt, if_pos hn', hl, wrapInt32_succ]
        rfl
      · show (1 : Int) = wrapInt32 (colAt code (cur.index + 1))
        rw [colAt_succ code _ hlt, if_pos hn']
        exact wrapInt32_one.symm
    · rename_i hn
      have hn' : ¬ code[cur.index] = NEWLINE := by rw [← hp]; exact hn
      refine ⟨hlt, ?_, ?_⟩
      · show cur.line = wrapInt32 (lineAt code (cur.index + 1))
        rw [lineAt_succ code _ hlt, if_neg hn', hl]
        rfl
      · show wrapInt32 (cur.col + 1) = wrapInt32 (colAt code (cur.index + 1))
        rw [colAt_succ code _ hlt, if_neg hn', hc, wrapInt32_succ]
        rfl

theorem next_of_NUL {code : List Char} {cur : Cursor} (h : cur.peek code 0 = NUL) :
    (cur.next code).2 = cur := by
  unfold Cursor.next; simp [h]

theorem next_adv (code : List Char) (cur : Cursor) : Adv code cur (cur.next code).2 := by
  by_cases h : cur.peek code 0 = NUL
  · rw [next_of_NUL h]; exact Adv.refl _ _
  · have := next_of_ne_NUL h
    exact ⟨by omega, this.2⟩

theorem next_index_le (code : List Char) (cur : Cursor) :
    (cur.next code).2.index ≤ cur.index + 1 := by
  by_cases h : cur.peek code 0 = NUL
  · rw [next_of_NUL h]; omega
  · have := next_of_ne_NUL h
    omega

theorem skipLoop_adv (code : List Char) (n : Nat) (last : Char) (cur : Cursor) :
    Adv code cur (Cursor.skipLoop code n last cur).2 := by
  induction n generalizing last cur with
  | zero => exact Adv.refl _ _
  | succ n ih =>
    unfold Cursor.skipLoop
    split
    · exact (next_adv code cur).trans (ih _ _)
    · exact Adv.refl _ _

theorem skip_adv (code : List Char) (n : Nat) (cur : Cursor) :
    Adv code cur (cur.skip code n).2 :=
  skipLoop_adv code n NUL cur

theorem skip_pos {code : List Char} {cur : Cursor} (n : Nat) (h : cur.peek code 0 ≠ NUL) :
    cur.index < (cur.skip code (n + 1)).2.index := by
  unfold Cursor.skip Cursor.skipLoop
  simp only [h, ne_eq, not_false_eq_true, if_true]
  have h₁ := (next_of_ne_NUL h).1
  have h₂ := (skipLoop_adv code n (cur.next code).1 (cur.next code).2).1
  omega

theorem whileNext_adv {code : List Char} {cond : Cursor → Bool} {fuel : Nat} {cur k : Cursor}
    (h : whileNext code cond fuel cur = some k) : Adv code cur k := by
  induction fuel generalizing cur with
  | zero => simp [whileNext] at h
  | succ fuel ih =>
    unfold whileNext at h
    split at h
    · exact (next_adv code cur).trans (ih h)
    · cases h; exact Adv.refl _ _

theorem stringLoop_adv {code : List Char} {fuel : Nat} {cur k : Cursor}
    (h : stringLoop code fuel cur = some k) : Adv code cur k := by
  induction fuel generalizing cur with
  | zero => simp [stringLoop] at h
  | succ fuel ih =>
    unfold stringLoop at h
    split at h
    · cases h; exact Adv.refl _ _
    · split at h
      · exact (skip_adv code 2 cur).trans (ih h)
      · split at h
        · cases h; exact next_adv code cur
        · exact (next_adv code cur).trans (ih h)

theorem charLoop_adv {code : List Char} {fuel : Nat} {s r : CharScan}
    (h : charLoop code fuel s = some r) : Adv code s.cur r.cur := by
  induction fuel generalizing s with
  | zero => simp [charLoop] at h
  | succ fuel ih =>
    unfold charLoop at h
    split at h
    · cases h; exact Adv.refl _ _
    · split at h
      · exact (skip_adv code 2 s.cur).trans (ih h)
      · split at h
        · cases h; exact next_adv code s.cur
        · exact (next_adv code s.cur).trans (ih h)

theorem whileNext_pos {code : List Char} {cond : Cursor → Bool} {fuel : Nat} {cur k : Cursor}
    (hc : cond cur = true) (hp : cur.peek code 0 ≠ NUL)
    (h : whileNext code cond fuel cur = some k) : cur.index < k.index := by
  cases fuel with
  | zero => simp [whileNext] at h
  | succ fuel =>
    unfold whileNext at h
    rw [if_pos hc] at h
    have h₁ := (next_of_ne_NUL hp).1
    have h₂ := (whileNext_adv h).1
    omega

theorem whileNext_peekIs_all {code : List Char} {p : Char → Bool} {fuel : Nat} {cur k : Cursor}
    (h : whileNext code (peekIs code p) fuel cur = some k) (i : Nat)
    (h₁ : cur.index ≤ i) (h₂ : i < k.index) : p (code.getD i NUL) = true := by
  induction fuel generalizing cur with
  | zero => simp [whileNext] at h
  | succ fuel ih =>
    unfold whileNext at h
    split at h
    · rename_i hc
      by_cases hi : i = cur.index
      · subst hi
        have := hc
        simp only [peekIs, Bool.and_eq_true] at this
        simpa [peek_eq_getD] using this.2
      · have hn := next_index_le code cur
        exact ih h (by omega)
    · cases h; omega

theorem numberTail_emits {code : List Char} {fuel : Nat} {tokens : List Token}
    {start : Nat} {line col : Int} {cur : Cursor} {st' : State}
    (h : numberTail code fuel tokens start line col cur = some st') :
    ∃ kind k, Adv code cur k ∧ st' = emit tokens kind start line col k := by
  unfold numberTail at h
  split at h
  · rw [Option.map_eq_some'] at h
    obtain ⟨k, hk, rfl⟩ := h
    exact ⟨_, k, whileNext_adv hk, rfl⟩
  · cases h
    exact ⟨_, cur, Adv.refl _ _, rfl⟩

theorem isdigit_ne_NUL {c : Char} (h : isdigit c = true) : c ≠ NUL := by
  rintro rfl
  revert h
  decide

theorem loopBody_cases {code : List Char} {fuel : Nat} {st st' : State}
    (h : loopBody code fuel st = some st') : Skips code st st' ∨ Emits code st st' := by
  unfold loopBody at h
  simp only at h
  split at h
  · left
    rw [Option.map_eq_some'] at h
    obtain ⟨k, hk, rfl⟩ := h
    exact ⟨rfl, whileNext_adv hk, fun i => whileNext_peekIs_all hk i⟩
  split at h
  · right
    rename_i _ hc
    rw [Option.map_eq_some'] at h
    obtain ⟨k, hk, rfl⟩ := h
    have hne : st.cur.peek code 0 ≠ NUL := by rw [hc.1]; decide
    have hlt := peek_ne_NUL_lt hne
    refine ⟨_, k, whileNext_adv hk, whileNext_pos ?_ hne hk, rfl⟩
    simp only [peekIs, Cursor.eof, hc.1]
    simp only [Nat.add_zero] at hlt
    simp [hlt]
    decide
  split at h
  · right
    rename_i _ _ hc
    rw [Option.map_eq_some'] at h
    obtain ⟨k, hk, rfl⟩ := h
    have hne : st.cur.peek code 0 ≠ NUL := by rw [hc.1]; decide
    have h₁ : st.cur.index < (st.cur.skip code 2).2.index := skip_pos 1 hne
    have h₂ := whileNext_adv hk
    refine ⟨_, _, ?_, ?_, rfl⟩
    · refine ((skip_adv code 2 st.cur).trans h₂).trans ?_
      split
      · exact skip_adv code 2 k
      · exact Adv.refl _ _
    · have h₃ : k.index ≤ (if (!k.eof code) = true then (k.skip code 2).2 else k).index := by
        split
        · exact (skip_adv code 2 k).1
        · exact Nat.le_refl _
      have := h₂.1
      omega
  split at h
  · right
    rename_i _ _ _ hc
    rw [Option.map_eq_some'] at h
    obtain ⟨k, hk, rfl⟩ := h
    have hne : st.cur.peek code 0 ≠ NUL := by rw [hc]; decide
    have h₁ := next_of_ne_NUL hne
    have h₂ := stringLoop_adv hk
    exact ⟨_, k, (next_adv code st.cur).trans h₂, by have := h₂.1; omega, rfl⟩
  split at h
  · right
    rename_i _ _ _ _ hc
    rw [Option.map_eq_some'] at h
    obtain ⟨s, hs, rfl⟩ := h
    have hne : st.cur.peek code 0 ≠ NUL := by rw [hc]; decide
    have h₁ := next_of_ne_NUL hne
    have h₂ := charLoop_adv hs
    exact ⟨_, s.cur, (next_adv code st.cur).trans h₂, by have := h₂.1; simp at this; omega, rfl⟩
  split at h
  · right
    rename_i _ _ _ _ _ hc
    have hne : st.cur.peek code 0 ≠ NUL := isdigit_ne_NUL hc
    have h₁ := next_of_ne_NUL hne
    have key : ∀ {cond : Cursor → Bool} {a : Cursor}, Adv code st.cur a →
        st.cur.index < a.index →
        (whileNext code cond fuel a).bind
          (numberTail code fuel st.tokens st.cur.index st.cur.line st.cur.col) = some st' →
        Emits code st st' := by
      intro cond a ha hlt hb
      rw [Option.bind_eq_some] at hb
      obtain ⟨b, hb₁, hb₂⟩ := hb
      obtain ⟨kind, k, hk, rfl⟩ := numberTail_emits hb₂
      have hab := whileNext_adv hb₁
      exact ⟨kind, k, (ha.trans hab).trans hk, by have := hab.1; have := hk.1; omega, rfl⟩
    split at h
    · refine key ((next_adv code st.cur).trans (next_adv code _)) ?_ h
      have := (next_adv code (st.cur.next code).2).1
      omega
    split at h
    · exact key (next_adv code st.cur) (by omega) h
    · exact key (next_adv code st.cur) (by omega) h
  · left
    cases h
    exact ⟨rfl, Adv.refl _ _, fun i h₁ h₂ => by omega⟩

theorem Tiles.le {code : List Char} {toks : List Token} {pos idx : Nat}
    (h : Tiles code toks pos idx) : pos ≤ idx := by
  induction toks generalizing pos with
  | nil => exact h.1
  | cons t ts ih =>
    have := ih h.2.2
    have := h.1
    omega

theorem Tiles.skip {code : List Char} {toks : List Token} {pos idx idx' : Nat}
    (h : Tiles code toks pos idx) (hle : idx ≤ idx')
    (hb : ∀ i, idx ≤ i → i < idx' → isblank (code.getD i NUL) = true) :
    Tiles code toks pos idx' := by
  induction toks generalizing pos with
  | nil =>
    refine ⟨Nat.le_trans h.1 hle, fun i h₁ h₂ => ?_⟩
    by_cases hi : i < idx
    · exact h.2 i h₁ hi
    · exact hb i (by omega) h₂
  | cons t ts ih => exact ⟨h.1, h.2.1, ih h.2.2⟩

theorem Tiles.snoc {code : List Char} {toks : List Token} {pos idx : Nat}
    (h : Tiles code toks pos idx) (t : Token) (ht : t.start = idx) :
    Tiles code (toks ++ [t]) pos (idx + t.len) := by
  induction toks generalizing pos with
  | nil =>
    refine ⟨by rw [ht]; exact h.1, by rw [ht]; exact h.2, by rw [ht], fun i h₁ h₂ => ?_⟩
    omega
  | cons u us ih => exact ⟨h.1, h.2.1, ih h.2.2⟩

theorem slice_append (code : List Char) {a b c : Nat} (hab : a ≤ b) (hbc : b ≤ c) :
    slice code a b ++ slice code b c = slice code a c := by
  unfold slice
  have h₁ : c - a = (b - a) + (c - b) := by omega
  have h₂ : code.drop b = (code.drop a).drop (b - a) := by
    rw [List.drop_drop]; congr 1; omega
  rw [h₁, List.take_add, h₂]

theorem Tiles.rebuild_eq {code : List Char} {toks : List Token} {pos idx : Nat}
    (h : Tiles code toks pos idx) : rebuild code toks pos idx = slice code pos idx := by
  induction toks generalizing pos with
  | nil => rfl
  | cons t ts ih =>
    have h₁ := h.2.2.le
    have h₂ : t.text code = slice code t.start (t.start + t.len) := by
      unfold Token.text slice
      congr 1; omega
    simp only [rebuild]
    rw [ih h.2.2, h₂, slice_append code (by omega) h₁, slice_append code h.1 (by omega)]

theorem Tiles.bounds {code : List Char} {toks : List Token} {pos idx : Nat}
    (h : Tiles code toks pos idx) (hl : ∀ t ∈ toks, 0 < t.len) :
    toks.Pairwise (fun a b => a.start < b.start) ∧
      ∀ t ∈ toks, pos ≤ t.start ∧ t.start + t.len ≤ idx := by
  induction toks generalizing pos with
  | nil => simp
  | cons t ts ih =>
    obtain ⟨hp, hb⟩ := ih h.2.2 (fun u hu => hl u (List.mem_cons_of_mem _ hu))
    have hle := h.2.2.le
    have ht := hl t (List.mem_cons_self _ _)
    refine ⟨List.pairwise_cons.2 ⟨fun u hu => ?_, hp⟩, fun u hu => ?_⟩
    · have := (hb u hu).1
      omega
    · rcases List.mem_cons.1 hu with rfl | hu
      · exact ⟨h.1, hle⟩
      · have := hb u hu
        have := h.1
        omega

theorem Inv.init (code : List Char) : Inv code State.init := by
  refine ⟨⟨Nat.zero_le _, ?_, ?_⟩, ⟨Nat.le_refl _, fun i h₁ h₂ => ?_⟩, fun t ht => ?_⟩
  · simp [State.init, Cursor.init, lineAt, wrapInt32_one]
  · simp [State.init, Cursor.init, colAt, wrapInt32_one]
  · simp [State.init, Cursor.init] at h₂
  · simp [State.init] at ht

theorem loopBody_inv {code : List Char} {fuel : Nat} {st st' : State}
    (hi : Inv code st) (h : loopBody code fuel st = some st') : Inv code st' := by
  obtain ⟨hwf, htl, htk⟩ := hi
  rcases loopBody_cases h with ⟨ht, ha, hb⟩ | ⟨kind, k, ha, hlt, rfl⟩
  · exact ⟨ha.2 hwf, by rw [ht]; exact htl.skip ha.1 hb, by rw [ht]; exact htk⟩
  · refine ⟨ha.2 hwf, ?_, fun t ht => ?_⟩
    · have := htl.snoc
        { kind := kind, start := st.cur.index, len := k.index - st.cur.index,
          line := st.cur.line, col := st.cur.col } rfl
      have he : st.cur.index + (k.index - st.cur.index) = k.index := by omega
      simp only [he] at this
      exact this
    · simp only [emit, List.mem_append, List.mem_singleton] at ht
      rcases ht with ht | rfl
      · exact htk t ht
      · exact ⟨by simp; omega, hwf.2.1, hwf.2.2⟩

theorem runN_inv {code : List Char} {inner n : Nat} {st st' : State}
    (hi : Inv code st) (h : runN code inner n st = some st') : Inv code st' := by
  induction n generalizing st with
  | zero => cases h; exact hi
  | succ n ih =>
    unfold runN at h
    split at h
    · cases h; exact hi
    · rw [Option.bind_eq_some] at h
      obtain ⟨s, hs, hr⟩ := h
      exact ih (loopBody_inv hi hs) hr

theorem mainLoop_runN {code : List Char} {inner fuel : Nat} {st st' : State}
    (h : mainLoop code inner fuel st = some st') :
    runN code inner fuel st = some st' ∧ st'.cur.eof code = true := by
  induction fuel generalizing st with
  | zero => simp [mainLoop] at h
  | succ fuel ih =>
    unfold mainLoop at h
    unfold runN
    split at h
    · rename_i he
      cases h
      simp [he]
    · rename_i he
      rw [Option.bind_eq_some] at h
      obtain ⟨s, hs, hr⟩ := h
      simp only [he]
      rw [hs]
      exact ih hr

theorem tokenize_runN {code : List Char} {fuel : Nat} {toks : List Token}
    (h : tokenize code fuel = some toks) :
    ∃ st, runN code fuel fuel State.init = some st ∧ st.cur.eof code = true ∧
      st.tokens = toks := by
  unfold tokenize at h
  rw [Option.map_eq_some'] at h
  obtain ⟨st, hs, rfl⟩ := h
  exact ⟨st, (mainLoop_runN hs).1, (mainLoop_runN hs).2, rfl⟩

theorem eof_index {code : List Char} {cur : Cursor} (hwf : cur.WF code)
    (he : cur.eof code = true) : cur.index = code.length := by
  have := hwf.1
  simp [Cursor.eof] at he
  omega

theorem slice_all (code : List Char) : slice code 0 code.length = code := by
  simp [slice]

theorem Inv.starts_lt {code : List Char} {st : State} (hi : Inv code st) (i j : Nat)
    (t₁ t₂ : Token) (hij : i < j) (h₁ : st.tokens[i]? = some t₁)
    (h₂ : st.tokens[j]? = some t₂) : t₁.start < t₂.start := by
  have hp := (hi.2.1.bounds (fun t ht => (hi.2.2 t ht).1)).1
  rw [List.pairwise_iff_getElem] at hp
  obtain ⟨hi', rfl⟩ := List.getElem?_eq_some.1 h₁
  obtain ⟨hj', rfl⟩ := List.getElem?_eq_some.1 h₂
  exact hp i j hi' hj' hij

theorem Inv.rebuild_take {code : List Char} {st : State} (hi : Inv code st) :
    rebuild code st.tokens 0 st.cur.index = code.take st.cur.index := by
  rw [hi.2.1.rebuild_eq]
  simp [slice]

theorem loopBody_noBranch {code : List Char} {st : State} (h : noBranch code st.cur = true)
    (fuel : Nat) : loopBody code fuel st = some st := by
  simp only [noBranch, Bool.and_eq_true, Bool.not_eq_true', bne_iff_ne, ne_eq,
    Bool.and_eq_false_iff, beq_eq_false_iff_ne] at h
  obtain ⟨⟨⟨⟨⟨h₁, h₂⟩, h₃⟩, h₄⟩, h₅⟩, h₆⟩ := h
  unfold loopBody
  simp only [h₁, h₄, h₅, h₆, Bool.false_eq_true, if_false]
  rw [if_neg (by tauto), if_neg (by tauto)]

theorem mainLoop_stall {code : List Char} {st : State} (he : st.cur.eof code = false)
    (h : noBranch code st.cur = true) (inner fuel : Nat) :
    mainLoop code inner fuel st = none := by
  induction fuel with
  | zero => rfl
  | succ fuel ih =>
    unfold mainLoop
    simp only [he, Bool.false_eq_true, if_false, loopBody_noBranch h, Option.some_bind]
    exact ih

theorem runN_stall {code : List Char} {st : State}
    (h : noBranch code st.cur = true) (inner n : Nat) :
    runN code inner n st = some st := by
  induction n with
  | zero => rfl
  | succ n ih =>
    unfold runN
    split
    · rfl
    · simp only [loopBody_noBranch h, Option.some_bind]
      exact ih

theorem drop_nil_eof {code : List Char} {cur : Cursor} (h : code.drop cur.index = []) :
    cur.eof code = true := by
  simpa [Cursor.eof] using h

theorem drop_cons_peek {code : List Char} {cur : Cursor} {c : Char} {rest : List Char}
    (h : code.drop cur.index = c :: rest) :
    cur.peek code 0 = c ∧ cur.eof code = false := by
  have hlt : cur.index < code.length := by
    by_contra hn
    rw [List.drop_of_length_le (Nat.le_of_not_lt hn)] at h
    cases h
  have hc : code[cur.index] = c := by
    rw [List.drop_eq_getElem_cons hlt] at h
    exact (List.cons.inj h).1
  constructor
  · unfold Cursor.peek; simp [hlt, hc]
  · simp [Cursor.eof, hlt]

theorem drop_succ_of_cons {code : List Char} {i : Nat} {c : Char} {rest : List Char}
    (h : code.drop i = c :: rest) : code.drop (i + 1) = rest := by
  rw [← List.tail_drop, h]; rfl

theorem drop_cons_peek1 {code : List Char} {cur : Cursor} {c d : Char} {rest : List Char}
    (h : code.drop cur.index = c :: d :: rest) : cur.peek code 1 = d := by
  have h₁ := drop_succ_of_cons h
  exact (@drop_cons_peek code ⟨cur.index + 1, cur.line, cur.col⟩ d rest h₁).1

theorem drop_cons_next {code : List Char} {cur : Cursor} {c : Char} {rest : List Char}
    (h : code.drop cur.index = c :: rest) (hc : c ≠ NUL) :
    (cur.next code).2.index = cur.index + 1 ∧ code.drop (cur.next code).2.index = rest := by
  have hp := (drop_cons_peek h).1
  have hn := (@next_of_ne_NUL code cur (by rw [hp]; exact hc)).1
  exact ⟨hn, by rw [hn]; exact drop_succ_of_cons h⟩

theorem drop_cons_skip2 {code : List Char} {cur : Cursor} {c d : Char} {rest : List Char}
    (h : code.drop cur.index = c :: d :: rest) (hc : c ≠ NUL) (hd : d ≠ NUL) :
    (cur.skip code 2).2.index = cur.index + 2 ∧ code.drop (cur.skip code 2).2.index = rest := by
  have hp := (drop_cons_peek h).1
  obtain ⟨hn, hr⟩ := drop_cons_next h hc
  have hp' := (drop_cons_peek hr).1
  obtain ⟨hn', hr'⟩ := drop_cons_next hr hd
  have hs : (cur.skip code 2).2 = ((cur.next code).2.next code).2 := by
    unfold Cursor.skip Cursor.skipLoop
    rw [if_pos (by rw [hp]; exact hc)]
    unfold Cursor.skipLoop
    rw [if_pos (by rw [hp']; exact hd)]
    rfl
  rw [hs]
  exact ⟨by omega, hr'⟩

theorem whileNext_mono {code : List Char} {cond : Cursor → Bool} {fuel : Nat} {cur k : Cursor}
    (h : whileNext code cond fuel cur = some k) (d : Nat) :
    whileNext code cond (fuel + d) cur = some k := by
  induction fuel generalizing cur with
  | zero => simp [whileNext] at h
  | succ fuel ih =>
    rw [Nat.add_right_comm]
    unfold whileNext at h ⊢
    split
    · rename_i hc; rw [if_pos hc] at h; exact ih h
    · rename_i hc; rw [if_neg hc] at h; exact h

theorem stringLoop_mono {code : List Char} {fuel : Nat} {cur k : Cursor}
    (h : stringLoop code fuel cur = some k) (d : Nat) :
    stringLoop code (fuel + d) cur = some k := by
  induction fuel generalizing cur with
  | zero => simp [stringLoop] at h
  | succ fuel ih =>
    rw [Nat.add_right_comm]
    unfold stringLoop at h ⊢
    split
    · rename_i hc; rw [if_pos hc] at h; exact h
    · rename_i hc
      rw [if_neg hc] at h
      split
      · rename_i hb; rw [if_pos hb] at h; exact ih h
      · rename_i hb
        rw [if_neg hb] at h
        split
        · rename_i hq; rw [if_pos hq] at h; exact h
        · rename_i hq; rw [if_neg hq] at h; exact ih h

theorem charLoop_mono {code : List Char} {fuel : Nat} {s r : CharScan}
    (h : charLoop code fuel s = some r) (d : Nat) :
    charLoop code (fuel + d) s = some r := by
  induction fuel generalizing s with
  | zero => simp [charLoop] at h
  | succ fuel ih =>
    rw [Nat.add_right_comm]
    unfold charLoop at h ⊢
    split
    · rename_i hc; rw [if_pos hc] at h; exact h
    · rename_i hc
      rw [if_neg hc] at h
      split
      · rename_i hb; rw [if_pos hb] at h; exact ih h
      · rename_i hb
        rw [if_neg hb] at h
        split
        · rename_i hq; rw [if_pos hq] at h; exact h
        · rename_i hq; rw [if_neg hq] at h; exact ih h

theorem numberTail_mono {code : List Char} {fuel : Nat} {tokens : List Token}
    {start : Nat} {line col : Int} {cur : Cursor} {st' : State}
    (h : numberTail code fuel tokens start line col cur = some st') (d : Nat) :
    numberTail code (fuel + d) tokens start line col cur = some st' := by
  unfold numberTail at h ⊢
  split
  · rename_i hc
    rw [if_pos hc, Option.map_eq_some'] at h
    obtain ⟨k, hk, rfl⟩ := h
    rw [whileNext_mono hk d]; rfl
  · rename_i hc
    rw [if_neg hc] at h
    exact h

theorem loopBody_mono {code : List Char} {fuel : Nat} {st st' : State}
    (h : loopBody code fuel st = some st') (d : Nat) :
    loopBody code (fuel + d) st = some st' := by
  have key : ∀ {cond : Cursor → Bool} {a : Cursor},
      (whileNext code cond fuel a).bind
        (numberTail code fuel st.tokens st.cur.index st.cur.line st.cur.col) = some st' →
      (whileNext code cond (fuel + d) a).bind
        (numberTail code (fuel + d) st.tokens st.cur.index st.cur.line st.cur.col)
        = some st' := by
    intro cond a hb
    rw [Option.bind_eq_some] at hb
    obtain ⟨b, hb₁, hb₂⟩ := hb
    rw [whileNext_mono hb₁ d]
    exact numberTail_mono hb₂ d
  unfold loopBody at h ⊢
  simp only at h ⊢
  split
  · rename_i hc
    rw [if_pos hc, Option.map_eq_some'] at h
    obtain ⟨k, hk, rfl⟩ := h
    rw [whileNext_mono hk d]; rfl
  rename_i hc₁
  rw [if_neg hc₁] at h
  split
  · rename_i hc
    rw [if_pos hc, Option.map_eq_some'] at h
    obtain ⟨k, hk, rfl⟩ := h
    rw [whileNext_mono hk d]; rfl
  rename_i hc₂
  rw [if_neg hc₂] at h
  split
  · rename_i hc
    rw [if_pos hc, Option.map_eq_some'] at h
    obtain ⟨k, hk, rfl⟩ := h
    rw [whileNext_mono hk d]; rfl
  rename_i hc₃
  rw [if_neg hc₃] at h
  split
  · rename_i hc
    rw [if_pos hc, Option.map_eq_some'] at h
    obtain ⟨k, hk, rfl⟩ := h
    rw [stringLoop_mono hk d]; rfl
  rename_i hc₄
  rw [if_neg hc₄] at h
  split
  · rename_i hc
    rw [if_pos hc, Option.map_eq_some'] at h
    obtain ⟨k, hk, rfl⟩ := h
    rw [charLoop_mono hk d]; rfl
  rename_i hc₅
  rw [if_neg hc₅] at h
  split
  · rename_i hc
    rw [if_pos hc] at h
    split
    · rename_i hx; rw [if_pos hx] at h; exact key h
    · rename_i hx
      rw [if_neg hx] at h
      split
      · rename_i hy; rw [if_pos hy] at h; exact key h
      · rename_i hy; rw [if_neg hy] at h; exact key h
  · rename_i hc
    rw [if_neg hc] at h
    exact h

/-- Whatever bound an iteration is given, it produces the same state when it finishes. -/
theorem loopBody_det {code : List Char} {f₁ f₂ : Nat} {st a b : State}
    (h₁ : loopBody code f₁ st = some a) (h₂ : loopBody code f₂ st = some b) : a = b := by
  have e₁ := loopBody_mono h₁ f₂
  have e₂ := loopBody_mono h₂ f₁
  rw [Nat.add_comm] at e₂
  rw [e₁] at e₂
  exact Option.some.inj e₂

theorem tokenize_single {code : List Char} {fuel : Nat} {st' : State} (hne : code ≠ [])
    (hf : 2 ≤ fuel) (hb : loopBody code fuel State.init = some st')
    (he : st'.cur.eof code = true) : tokenize code fuel = some st'.tokens := by
  obtain ⟨f, rfl⟩ : ∃ f, fuel = f + 2 := ⟨fuel - 2, by omega⟩
  have h0 : State.init.cur.eof code = false := by
    cases code with
    | nil => exact absurd rfl hne
    | cons c cs => simp [State.init, Cursor.init, Cursor.eof]
  unfold tokenize
  have : mainLoop code (f + 2) (f + 2) State.init = some st' := by
    show mainLoop code (f + 2) ((f + 1) + 1) State.init = some st'
    unfold mainLoop
    simp only [h0, Bool.false_eq_true, if_false, hb, Option.some_bind]
    unfold mainLoop
    simp [he]
  rw [this]; rfl

theorem loopBody_string {code : List Char} {st : State} (h : st.cur.peek code 0 = DQUOTE)
    (fuel : Nat) :
    loopBody code fuel st = (stringLoop code fuel (st.cur.next code).2).map
      (emit st.tokens token_kind.String st.cur.index st.cur.line st.cur.col) := by
  unfold loopBody
  simp only [h]
  rw [if_neg (by decide), if_neg (fun h => absurd h.1 (by decide)),
    if_neg (fun h => absurd h.1 (by decide))]
  exact if_pos trivial

theorem loopBody_char {code : List Char} {st : State} (h : st.cur.peek code 0 = SQUOTE)
    (fuel : Nat) :
    loopBody code fuel st =
      (charLoop code fuel { cur := (st.cur.next code).2, i := 0, escape := false }).map
        (fun s => emit st.tokens
          (if s.i ≤ 1 ∨ s.escape = true then token_kind.Char else token_kind.MultiCharLiteral)
          st.cur.index st.cur.line st.cur.col s.cur) := by
  unfold loopBody
  simp only [h]
  rw [if_neg (by decide), if_neg (fun h => absurd h.1 (by decide)),
    if_neg (fun h => absurd h.1 (by decide)), if_neg (by decide)]
  exact if_pos trivial

theorem stringLoop_units {code : List Char} (units : List (List Char)) (rest : List Char)
    (cur : Cursor) (fuel : Nat)
    (hd : code.drop cur.index = units.flatten ++ DQUOTE :: rest)
    (hu : ∀ u ∈ units, isUnit DQUOTE u = true) (hn : ∀ c ∈ units.flatten, c ≠ NUL)
    (hf : units.length < fuel) :
    ∃ k, stringLoop code fuel cur = some k ∧
      k.index = cur.index + units.flatten.length + 1 ∧ code.drop k.index = rest := by
  induction units generalizing cur fuel with
  | nil =>
    obtain ⟨f, rfl⟩ : ∃ f, fuel = f + 1 := ⟨fuel - 1, by simp at hf; omega⟩
    simp only [List.flatten_nil, List.nil_append] at hd
    obtain ⟨hp, he⟩ := drop_cons_peek hd
    obtain ⟨hi, hr⟩ := drop_cons_next hd (by decide)
    refine ⟨(cur.next code).2, ?_, by simpa using hi, hr⟩
    unfold stringLoop
    rw [if_neg (by simp [he]), hp, if_neg (by decide), if_pos rfl]
  | cons u us ih =>
    obtain ⟨f, rfl⟩ : ∃ f, fuel = f + 1 := ⟨fuel - 1, by simp at hf; omega⟩
    have hus : ∀ v ∈ us, isUnit DQUOTE v = true := fun v hv => hu v (List.mem_cons_of_mem _ hv)
    have hns : ∀ c ∈ us.flatten, c ≠ NUL := fun c hc =>
      hn c (by simp only [List.flatten_cons, List.mem_append]; exact Or.inr hc)
    have hfs : us.length < f := by simp at hf; omega
    have huu := hu u (List.mem_cons_self _ _)
    rcases u with _ | ⟨c, _ | ⟨d, _ | ⟨e, t⟩⟩⟩
    · simp [isUnit] at huu
    · simp only [isUnit, Bool.and_eq_true, bne_iff_ne, ne_eq] at huu
      simp only [List.flatten_cons, List.singleton_append, List.cons_append] at hd
      obtain ⟨hp, he⟩ := drop_cons_peek hd
      obtain ⟨hi, hr⟩ := drop_cons_next hd (hn c (by simp))
      obtain ⟨k, hk, hki, hkr⟩ := ih (cur.next code).2 f hr hus hns hfs
      refine ⟨k, ?_, by simp [hki, hi]; omega, hkr⟩
      unfold stringLoop
      rw [if_neg (by simp [he]), hp, if_neg huu.2, if_neg huu.1]
      exact hk
    · simp only [isUnit, beq_iff_eq] at huu
      subst huu
      simp only [List.flatten_cons, List.cons_append, List.nil_append] at hd
      obtain ⟨hp, he⟩ := drop_cons_peek hd
      obtain ⟨hi, hr⟩ := drop_cons_skip2 hd (by decide) (hn d (by simp))
      obtain ⟨k, hk, hki, hkr⟩ := ih (cur.skip code 2).2 f hr hus hns hfs
      refine ⟨k, ?_, by simp [hki, hi]; omega, hkr⟩
      unfold stringLoop
      rw [if_neg (by simp [he]), hp, if_pos rfl]
      exact hk
    · simp [isUnit] at huu

theorem charLoop_units {code : List Char} (units : List (List Char)) (rest : List Char)
    (s : CharScan) (fuel m : Nat)
    (hd : code.drop s.cur.index = units.flatten ++ SQUOTE :: rest)
    (hu : ∀ u ∈ units, isUnit SQUOTE u = true) (hn : ∀ c ∈ units.flatten, c ≠ NUL)
    (hf : units.length < fuel) (hm : s.i = wrapInt32 m) :
    ∃ r, charLoop code fuel s = some r ∧
      r.cur.index = s.cur.index + units.flatten.length + 1 ∧ code.drop r.cur.index = rest ∧
      r.i = wrapInt32 (m + units.length : Nat) ∧
      r.escape = (s.escape || units.any isEscape) := by
  induction units generalizing s fuel m with
  | nil =>
    obtain ⟨f, rfl⟩ : ∃ f, fuel = f + 1 := ⟨fuel - 1, by simp at hf; omega⟩
    simp only [List.flatten_nil, List.nil_append] at hd
    obtain ⟨hp, he⟩ := drop_cons_peek hd
    obtain ⟨hi, hr⟩ := drop_cons_next hd (by decide)
    refine ⟨{ cur := (s.cur.next code).2, i := s.i, escape := s.escape }, ?_,
      by simpa using hi, hr, by simpa using hm, by simp⟩
    unfold charLoop
    rw [if_neg (by simp [he]), hp, if_neg (by decide), if_pos rfl]
  | cons u us ih =>
    obtain ⟨f, rfl⟩ : ∃ f, fuel = f + 1 := ⟨fuel - 1, by simp at hf; omega⟩
    have hm1 : wrapInt32 (s.i + 1) = wrapInt32 (m + 1 : Nat) := by
      rw [hm, wrapInt32_succ]; rfl
    have hadd : m + 1 + us.length = m + (u :: us).length := by
      simp only [List.length_cons]; omega
    have hus : ∀ v ∈ us, isUnit SQUOTE v = true := fun v hv => hu v (List.mem_cons_of_mem _ hv)
    have hns : ∀ c ∈ us.flatten, c ≠ NUL := fun c hc =>
      hn c (by simp only [List.flatten_cons, List.mem_append]; exact Or.inr hc)
    have hfs : us.length < f := by simp at hf; omega
    have huu := hu u (List.mem_cons_self _ _)
    rcases u with _ | ⟨c, _ | ⟨d, _ | ⟨e, t⟩⟩⟩
    · simp [isUnit] at huu
    · simp only [isUnit, Bool.and_eq_true, bne_iff_ne, ne_eq] at huu
      simp only [List.flatten_cons, List.singleton_append, List.cons_append] at hd
      obtain ⟨hp, he⟩ := drop_cons_peek hd
      obtain ⟨hi, hr⟩ := drop_cons_next hd (hn c (by simp))
      obtain ⟨r, hk, hki, hkr, hri, hre⟩ :=
        ih { cur := (s.cur.next code).2, i := wrapInt32 (s.i + 1), escape := s.escape } f
          (m + 1) hr hus hns hfs hm1
      refine ⟨r, ?_, by simp [hki, hi]; omega, hkr, by rw [hri, hadd],
        by simp [hre, isEscape]⟩
      unfold charLoop
      rw [if_neg (by simp [he]), hp, if_neg huu.2, if_neg huu.1]
      exact hk
    · simp only [isUnit, beq_iff_eq] at huu
      subst huu
      simp only [List.flatten_cons, List.cons_append, List.nil_append] at hd
      obtain ⟨hp, he⟩ := drop_cons_peek hd
      obtain ⟨hi, hr⟩ := drop_cons_skip2 hd (by decide) (hn d (by simp))
      obtain ⟨r, hk, hki, hkr, hri, hre⟩ :=
        ih { cur := (s.cur.skip code 2).2, i := wrapInt32 (s.i + 1), escape := true } f
          (m + 1) hr hus hns hfs hm1
      refine ⟨r, ?_, by simp [hki, hi]; omega, hkr, by rw [hri, hadd],
        by simp [hre, isEscape]⟩
      unfold charLoop
      rw [if_neg (by simp [he]), hp, if_pos rfl]
      exact hk
    · simp [isUnit] at huu

theorem units_length_le {q : Char} (units : List (List Char))
    (hu : ∀ u ∈ units, isUnit q u = true) : units.length ≤ units.flatten.length := by
  induction units with
  | nil => simp
  | cons u us ih =>
    have := ih (fun v hv => hu v (List.mem_cons_of_mem _ hv))
    have huu := hu u (List.mem_cons_self _ _)
    rcases u with _ | ⟨c, t⟩
    · simp [isUnit] at huu
    · simp only [List.length_cons, List.flatten_cons, List.length_append]
      omega

theorem text_whole (code : List Char) (kind : token_kind) (line col : Nat) :
    Token.text code
      { kind := kind, start := 0, len := code.length, line := line, col := col } = code := by
  simp [Token.text]

theorem string_literal_tokens (units : List (List Char)) (fuel : Nat)
    (hu : ∀ u ∈ units, isUnit DQUOTE u = true) (hn : ∀ c ∈ units.flatten, c ≠ NUL)
    (hf : (quoted DQUOTE units.flatten).length < fuel) :
    tokenize (quoted DQUOTE units.flatten) fuel = some
      [{ kind := token_kind.String, start := 0, len := (quoted DQUOTE units.flatten).length,
         line := 1, col := 1 }] := by
  have hlen : (quoted DQUOTE units.flatten).length = units.flatten.length + 2 := by
    simp [quoted]
  have hul := units_length_le units hu
  have h0 : (quoted DQUOTE units.flatten).drop State.init.cur.index
      = DQUOTE :: (units.flatten ++ [DQUOTE]) := rfl
  obtain ⟨hp, -⟩ := drop_cons_peek h0
  obtain ⟨hi, hr⟩ := drop_cons_next h0 (by decide)
  obtain ⟨k, hk, hki, hkr⟩ := stringLoop_units units [] _ fuel hr hu hn (by omega)
  have hb := loopBody_string hp fuel
  rw [hk] at hb
  have hidx : k.index = (quoted DQUOTE units.flatten).length := by
    rw [hki, hi, hlen]; simp [State.init, Cursor.init]; omega
  have := tokenize_single (by simp [quoted]) (by omega) hb (drop_nil_eof hkr)
  rw [this]
  simp [emit, State.init, Cursor.init, hidx]

theorem char_literal_tokens (units : List (List Char)) (fuel : Nat)
    (hu : ∀ u ∈ units, isUnit SQUOTE u = true) (hn : ∀ c ∈ units.flatten, c ≠ NUL)
    (hf : (quoted SQUOTE units.flatten).length < fuel) :
    tokenize (quoted SQUOTE units.flatten) fuel = some
      [{ kind := if wrapInt32 units.length ≤ 1 ∨ units.any isEscape = true then token_kind.Char
                 else token_kind.MultiCharLiteral,
         start := 0, len := (quoted SQUOTE units.flatten).length, line := 1, col := 1 }] := by
  have hlen : (quoted SQUOTE units.flatten).length = units.flatten.length + 2 := by
    simp [quoted]
  have hul := units_length_le units hu
  have h0 : (quoted SQUOTE units.flatten).drop State.init.cur.index
      = SQUOTE :: (units.flatten ++ [SQUOTE]) := rfl
  obtain ⟨hp, -⟩ := drop_cons_peek h0
  obtain ⟨hi, hr⟩ := drop_cons_next h0 (by decide)
  obtain ⟨r, hk, hki, hkr, hri, hre⟩ := charLoop_units units []
    { cur := (State.init.cur.next (quoted SQUOTE units.flatten)).2, i := 0, escape := false }
    fuel 0 hr hu hn (by omega) (show (0 : Int) = wrapInt32 ((0 : Nat) : Int) from by decide)
  have hb := loopBody_char hp fuel
  rw [hk] at hb
  have hidx : r.cur.index = (quoted SQUOTE units.flatten).length := by
    rw [hki]; simp only [hi, hlen]; simp [State.init, Cursor.init]; omega
  have := tokenize_single (by simp [quoted]) (by omega) hb (drop_nil_eof hkr)
  rw [this]
  simp at hri hre
  simp [emit, State.init, Cursor.init, hidx, hri, hre]

theorem flatten_singletons (body : List Char) : (body.map (fun c => [c])).flatten = body := by
  induction body with
  | nil => rfl
  | cons c cs ih => simp [ih]

theorem isodigit_facts {c : Char} (h : isodigit c = true) :
    c ≠ NUL ∧ c ≠ SQUOTE ∧ c ≠ BACKSLASH := by
  refine ⟨?_, ?_, ?_⟩ <;> (rintro rfl; revert h; decide)

theorem tolower_eq_x (c : Char) : tolower c = 'x' ↔ c = 'x' ∨ c = 'X' := by
  unfold tolower
  split
  · rename_i h
    have h₁ : 65 ≤ c.toNat := h.1
    have h₂ : c.toNat ≤ 90 := h.2
    have hc : c = Char.ofNat c.toNat := (Char.ofNat_toNat c).symm
    generalize c.toNat = n at h₁ h₂ hc
    subst hc
    interval_cases n <;> decide
  · rename_i h
    constructor
    · exact fun h => Or.inl h
    · rintro (rfl | rfl)
      · rfl
      · exact absurd (by decide) h

theorem isdigit_facts {c : Char} (h : isdigit c = true) :
    c ≠ NUL ∧ isblank c = false ∧ c ≠ '/' ∧ c ≠ DQUOTE ∧ c ≠ SQUOTE := by
  refine ⟨?_, ?_, ?_, ?_, ?_⟩
  · rintro rfl; revert h; decide
  · by_contra hb
    simp only [isblank, Bool.not_eq_false, Bool.or_eq_true, beq_iff_eq] at hb
    rcases hb with rfl | rfl <;> (revert h; decide)
  · rintro rfl; revert h; decide
  · rintro rfl; revert h; decide
  · rintro rfl; revert h; decide

theorem isxdigit_not_blank {c : Char} (h : isxdigit c = true) : isblank c = false := by
  by_contra hb
  simp only [isblank, Bool.not_eq_false, Bool.or_eq_true, beq_iff_eq] at hb
  rcases hb with rfl | rfl <;> (revert h; decide)

theorem isodigit_not_blank {c : Char} (h : isodigit c = true) : isblank c = false := by
  by_contra hb
  simp only [isblank, Bool.not_eq_false, Bool.or_eq_true, beq_iff_eq] at hb
  rcases hb with rfl | rfl <;> (revert h; decide)

theorem whileNext_takeWhile {code : List Char} (p : Char → Bool) (l : List Char)
    (cur : Cursor) (fuel : Nat) (hd : code.drop cur.index = l) (hn : ∀ c ∈ l, c ≠ NUL)
    (hf : (l.takeWhile p).length < fuel) :
    ∃ k, whileNext code (peekIs code p) fuel cur = some k ∧
      k.index = cur.index + (l.takeWhile p).length ∧ code.drop k.index = l.dropWhile p := by
  induction l generalizing cur fuel with
  | nil =>
    obtain ⟨f, rfl⟩ : ∃ f, fuel = f + 1 := ⟨fuel - 1, by simp at hf; omega⟩
    refine ⟨cur, ?_, by simp, by simpa using hd⟩
    unfold whileNext
    rw [if_neg (by simp [peekIs, drop_nil_eof hd])]
  | cons c cs ih =>
    obtain ⟨hp, he⟩ := drop_cons_peek hd
    by_cases hc : p c = true
    · simp only [List.takeWhile_cons, hc, if_true, List.length_cons] at hf ⊢
      obtain ⟨f, rfl⟩ : ∃ f, fuel = f + 1 := ⟨fuel - 1, by omega⟩
      obtain ⟨hi, hr⟩ := drop_cons_next hd (hn c (List.mem_cons_self _ _))
      obtain ⟨k, hk, hki, hkr⟩ := ih (cur.next code).2 f hr
        (fun d hd => hn d (List.mem_cons_of_mem _ hd)) (by omega)
      refine ⟨k, ?_, by rw [hki, hi]; omega, by simpa [List.dropWhile_cons, hc] using hkr⟩
      unfold whileNext
      rw [if_pos (by simp [peekIs, he, hp, hc])]
      exact hk
    · obtain ⟨f, rfl⟩ : ∃ f, fuel = f + 1 := ⟨fuel - 1, by omega⟩
      refine ⟨cur, ?_, by simp [List.takeWhile_cons, hc],
        by simpa [List.dropWhile_cons, hc] using hd⟩
      unfold whileNext
      rw [if_neg (by simp [peekIs, he, hp, hc])]

theorem take_takeWhile_length (p : Char → Bool) (l : List Char) :
    l.take (l.takeWhile p).length = l.takeWhile p := by
  induction l with
  | nil => rfl
  | cons c cs ih =>
    by_cases hc : p c = true
    · simp [List.takeWhile_cons, hc, ih]
    · simp [List.takeWhile_cons, hc]

theorem drop_takeWhile_length (p : Char → Bool) (l : List Char) :
    l.drop (l.takeWhile p).length = l.dropWhile p := by
  induction l with
  | nil => rfl
  | cons c cs ih =>
    by_cases hc : p c = true
    · simp [List.takeWhile_cons, List.dropWhile_cons, hc, ih]
    · simp [List.takeWhile_cons, List.dropWhile_cons, hc]

/-- The tail of the numeric branch when the digits are followed by a non-blank character:
one `Unknown` token up to the next blank or the end of the buffer. -/
theorem numberTail_unknown {code : List Char} {fuel : Nat} {tokens : List Token}
    {start : Nat} {line col : Int} {cur : Cursor} {c : Char} {tail : List Char}
    (hd : code.drop cur.index = c :: tail) (hc : isblank c = false)
    (hn : ∀ d ∈ c :: tail, d ≠ NUL) (hf : (c :: tail).length < fuel) :
    ∃ k, numberTail code fuel tokens start line col cur
        = some (emit tokens token_kind.Unknown start line col k) ∧
      k.index = cur.index + (nonBlankRun (c :: tail)).length := by
  obtain ⟨hp, -⟩ := drop_cons_peek hd
  have hle := (List.takeWhile_sublist (l := c :: tail) (fun c => !isblank c)).length_le
  obtain ⟨k, hk, hki, -⟩ := whileNext_takeWhile (fun c => !isblank c) (c :: tail) cur fuel hd hn
    (by omega)
  refine ⟨k, ?_, hki⟩
  unfold numberTail
  rw [if_pos (by simp [hp, hc]), hk]
  rfl

theorem loopBody_digit {code : List Char} {st : State}
    (h : isdigit (st.cur.peek code 0) = true) (fuel : Nat) :
    loopBody code fuel st =
      if (st.cur.peek code 0 == '0' && tolower ((st.cur.next code).2.peek code 0) == 'x') = true
      then
        (whileNext code (peekIs code isxdigit) fuel ((st.cur.next code).2.next code).2).bind
          (numberTail code fuel st.tokens st.cur.index st.cur.line st.cur.col)
      else if (st.cur.peek code 0 == '0') = true then
        (whileNext code (peekIs code isodigit) fuel (st.cur.next code).2).bind
          (numberTail code fuel st.tokens st.cur.index st.cur.line st.cur.col)
      else
        (whileNext code (peekIs code isdigit) fuel (st.cur.next code).2).bind
          (numberTail code fuel st.tokens st.cur.index st.cur.line st.cur.col) := by
  obtain ⟨-, h₁, h₂, h₃, h₄⟩ := isdigit_facts h
  unfold loopBody
  simp only
  rw [if_neg (by simp [h₁]), if_neg (fun hc => h₂ hc.1), if_neg (fun hc => h₂ hc.1),
    if_neg h₃, if_neg h₄, if_pos h]

theorem nonBlankRun_split (code : List Char) (n : Nat)
    (h : ∀ d ∈ code.take n, isblank d = false) :
    (nonBlankRun code).length = (code.take n).length + (nonBlankRun (code.drop n)).length := by
  unfold nonBlankRun
  conv_lhs => rw [← List.take_append_drop n code]
  rw [List.takeWhile_append_of_pos (by simpa using h), List.length_append]

/-- The digit phase of the numeric branch, from the first iteration: the cursor stops right
after the digit run, and nothing before it is a blank. -/
theorem digits_phase (c₀ : Char) (rest : List Char) (fuel : Nat) (hdig : isdigit c₀ = true)
    (hn : ∀ c ∈ c₀ :: rest, c ≠ NUL) (hf : (c₀ :: rest).length < fuel) :
    ∃ k, loopBody (c₀ :: rest) fuel State.init = numberTail (c₀ :: rest) fuel [] 0 1 1 k ∧
      k.index = digitRunLength (c₀ :: rest) ∧ k.index ≤ (c₀ :: rest).length ∧
      ∀ d ∈ (c₀ :: rest).take k.index, isblank d = false := by
  have h0 : (c₀ :: rest).drop State.init.cur.index = c₀ :: rest := rfl
  obtain ⟨hp, -⟩ := drop_cons_peek h0
  obtain ⟨hi, hr⟩ := drop_cons_next h0 (hn c₀ (List.mem_cons_self _ _))
  have hi1 : (State.init.cur.next (c₀ :: rest)).2.index = 1 := by simpa using hi
  have hb0 := (isdigit_facts hdig).2.1
  have hnr : ∀ c ∈ rest, c ≠ NUL := fun c hc => hn c (List.mem_cons_of_mem _ hc)
  have hlen : (c₀ :: rest).length = rest.length + 1 := rfl
  have hbody := @loopBody_digit (c₀ :: rest) State.init (by rw [hp]; exact hdig) fuel
  rw [hp] at hbody
  by_cases hz : c₀ = '0'
  · subst hz
    by_cases hx : tolower ((State.init.cur.next ('0' :: rest)).2.peek ('0' :: rest) 0) = 'x'
    · -- `0x` or `0X`, then hex digits
      rw [if_pos (by simp [hx])] at hbody
      rcases rest with _ | ⟨x, rest'⟩
      · have := (drop_nil_eof hr)
        have hpn : (State.init.cur.next ['0']).2.peek ['0'] 0 = NUL := by
          unfold Cursor.peek; simp [hi1]
        rw [hpn] at hx
        exact absurd hx (by decide)
      · obtain ⟨hp1, -⟩ := drop_cons_peek hr
        rw [hp1] at hx
        have hxx := (tolower_eq_x x).1 hx
        obtain ⟨hi2, hr2⟩ := drop_cons_next hr (hnr x (List.mem_cons_self _ _))
        have hle := (List.takeWhile_sublist (l := rest') isxdigit).length_le
        obtain ⟨k, hk, hki, -⟩ := whileNext_takeWhile isxdigit rest' _ fuel hr2
          (fun c hc => hnr c (List.mem_cons_of_mem _ hc)) (by simp at hf; omega)
        have hkd : k.index = 2 + (rest'.takeWhile isxdigit).length := by
          rw [hki, hi2, hi1]
        refine ⟨k, ?_, ?_, ?_, ?_⟩
        · rw [hbody, hk]; rfl
        · rw [hkd]; simp [digitRunLength, hxx]
        · rw [hkd]; simp; omega
        · rw [hkd]
          have : 2 + (rest'.takeWhile isxdigit).length
              = (rest'.takeWhile isxdigit).length + 1 + 1 := by omega
          rw [this, List.take_succ_cons, List.take_succ_cons, take_takeWhile_length]
          intro d hd
          rcases List.mem_cons.1 hd with rfl | hd
          · rfl
          rcases List.mem_cons.1 hd with rfl | hd
          · rcases hxx with rfl | rfl <;> rfl
          · exact isxdigit_not_blank (List.mem_takeWhile_imp hd)
    · -- a leading `0`, then octal digits
      rw [if_neg (by simp [hx]), if_pos (by simp)] at hbody
      have hle := (List.takeWhile_sublist (l := rest) isodigit).length_le
      obtain ⟨k, hk, hki, -⟩ := whileNext_takeWhile isodigit rest _ fuel hr hnr
        (by simp at hf; omega)
      have hkd : k.index = 1 + (rest.takeWhile isodigit).length := by
        rw [hki, hi1]
      refine ⟨k, ?_, ?_, ?_, ?_⟩
      · rw [hbody, hk]; rfl
      · rw [hkd]
        rcases rest with _ | ⟨x, rest'⟩
        · simp [digitRunLength]
        · obtain ⟨hp1, -⟩ := drop_cons_peek hr
          rw [hp1] at hx
          have hxx : ¬(x = 'x' ∨ x = 'X') := fun h => hx ((tolower_eq_x x).2 h)
          simp [digitRunLength, hxx]
      · rw [hkd]; simp; omega
      · rw [hkd]
        have : 1 + (rest.takeWhile isodigit).length
            = (rest.takeWhile isodigit).length + 1 := by omega
        rw [this, List.take_succ_cons, take_takeWhile_length]
        intro d hd
        rcases List.mem_cons.1 hd with rfl | hd
        · rfl
        · exact isodigit_not_blank (List.mem_takeWhile_imp hd)
  · -- a non-zero digit, then decimal digits
    rw [if_neg (by simp [hz]), if_neg (by simp [hz])] at hbody
    have hle := (List.takeWhile_sublist (l := rest) isdigit).length_le
    obtain ⟨k, hk, hki, -⟩ := whileNext_takeWhile isdigit rest _ fuel hr hnr
      (by simp at hf; omega)
    have hkd : k.index = 1 + (rest.takeWhile isdigit).length := by
      rw [hki, hi1]
    refine ⟨k, ?_, ?_, ?_, ?_⟩
    · rw [hbody, hk]; rfl
    · rw [hkd]; simp [digitRunLength, hz]
    · rw [hkd]; simp; omega
    · rw [hkd]
      have : 1 + (rest.takeWhile isdigit).length
          = (rest.takeWhile isdigit).length + 1 := by omega
      rw [this, List.take_succ_cons, take_takeWhile_length]
      intro d hd
      rcases List.mem_cons.1 hd with rfl | hd
      · exact hb0
      · exact (isdigit_facts (List.mem_takeWhile_imp hd)).2.1

theorem glued_digits (code : List Char) (fuel : Nat) (c₀ c : Char)
    (hn : ∀ d ∈ code, d ≠ NUL) (h₀ : code.head? = some c₀) (hdig : isdigit c₀ = true)
    (hnext : code[digitRunLength code]? = some c) (hc : isblank c = false)
    (hf : code.length < fuel) :
    ∃ k, loopBody code fuel State.init = some (emit [] token_kind.Unknown 0 1 1 k) ∧
      k.index = (nonBlankRun code).length := by
  rcases code with _ | ⟨c', rest⟩
  · simp at h₀
  · obtain rfl : c' = c₀ := by simpa using h₀
    obtain ⟨k, hk, hki, hkl, hkb⟩ := digits_phase c' rest fuel hdig hn hf
    obtain ⟨hlt, hget⟩ := List.getElem?_eq_some.1 hnext
    have hd : (c' :: rest).drop k.index = c :: (c' :: rest).drop (k.index + 1) := by
      rw [hki, List.drop_eq_getElem_cons hlt, hget]
    have hnd : ∀ d ∈ c :: (c' :: rest).drop (k.index + 1), d ≠ NUL := by
      intro d hdm
      rw [← hd] at hdm
      exact hn d (List.mem_of_mem_drop hdm)
    have hfl : (c :: (c' :: rest).drop (k.index + 1)).length < fuel := by
      rw [← hd, List.length_drop]; omega
    obtain ⟨k', hk', hki'⟩ := @numberTail_unknown (c' :: rest) fuel [] 0 1 1 k c _ hd hc hnd hfl
    refine ⟨k', by rw [hk, hk'], ?_⟩
    rw [hki', nonBlankRun_split (c' :: rest) k.index hkb, ← hd, List.length_take]
    omega

/-! ## The cursor methods -/

theorem lineAt_le (code : List Char) (i : Nat) : lineAt code i ≤ 1 + code.length := by
  unfold lineAt
  have h₁ := List.count_le_length NEWLINE (code.take i)
  have h₂ : (code.take i).length ≤ code.length := by
    rw [List.length_take]; exact Nat.min_le_right _ _
  omega

theorem colAt_le (code : List Char) (i : Nat) : colAt code i ≤ 1 + code.length := by
  unfold colAt
  have h₁ := (List.takeWhile_sublist (l := (code.take i).reverse)
    (fun c => c != NEWLINE)).length_le
  have h₂ : (code.take i).length ≤ code.length := by
    rw [List.length_take]; exact Nat.min_le_right _ _
  rw [List.length_reverse] at h₁
  omega

theorem lineAt_mono (code : List Char) {i j : Nat} (h : i ≤ j) :
    lineAt code i ≤ lineAt code j := by
  unfold lineAt
  have hs : (code.take i).Sublist (code.take j) := List.take_sublist_take_left code h
  have := hs.count_le NEWLINE
  omega

/-- In a buffer of fewer than `2^31 - 1` characters the counters of a well formed cursor
are the positions themselves, without wrapping. -/
theorem WF_small {code : List Char} {cur : Cursor} (h : cur.WF code)
    (hs : code.length < 2147483647) :
    cur.line = lineAt code cur.index ∧ cur.col = colAt code cur.index := by
  obtain ⟨-, hl, hc⟩ := h
  have h₁ := lineAt_le code cur.index
  have h₂ := colAt_le code cur.index
  rw [hl, hc, wrapInt32_of_le _ (by omega), wrapInt32_of_le _ (by omega)]
  exact ⟨rfl, rfl⟩

theorem init_WF (code : List Char) : Cursor.init.WF code :=
  (Inv.init code).1

theorem run_adv (code : List Char) (call : CursorCall) (cur : Cursor) :
    Adv code cur (call.run code cur) := by
  cases call with
  | peek _ => exact Adv.refl _ _
  | next => exact next_adv code cur
  | skip n => exact skip_adv code n cur

theorem run_line_le (code : List Char) (call : CursorCall) (cur : Cursor)
    (h : cur.WF code) (hs : code.length < 2147483647) :
    cur.line ≤ (call.run code cur).line := by
  have ha := run_adv code call cur
  have h₁ := (WF_small h hs).1
  have h₂ := (WF_small (ha.2 h) hs).1
  have h₃ := lineAt_mono code ha.1
  rw [h₁, h₂]
  exact_mod_cast h₃

theorem foldl_run_WF (code : List Char) (calls : List CursorCall) (cur : Cursor)
    (h : cur.WF code) : (calls.foldl (fun cur call => call.run code cur) cur).WF code := by
  induction calls generalizing cur with
  | nil => exact h
  | cons call calls ih => exact ih _ ((run_adv code call cur).2 h)

theorem next_spec (code : List Char) (cur : Cursor) :
    (∀ h : cur.index < code.length, code[cur.index] ≠ NUL →
      cur.next code = (code[cur.index],
        if code[cur.index] = NEWLINE then
          { index := cur.index + 1, line := wrapInt32 (cur.line + 1), col := 1 }
        else { index := cur.index + 1, line := cur.line, col := wrapInt32 (cur.col + 1) })) ∧
    (∀ h : cur.index < code.length, code[cur.index] = NUL → cur.next code = (NUL, cur)) ∧
    (code.length ≤ cur.index → cur.next code = (NUL, cur)) := by
  refine ⟨fun h hc => ?_, fun h hc => ?_, fun h => ?_⟩
  · have hp : cur.peek code 0 = code[cur.index] := by unfold Cursor.peek; simp [h]
    unfold Cursor.next
    simp only [hp, hc, if_false]
    split <;> rfl
  · have hp : cur.peek code 0 = NUL := by unfold Cursor.peek; simp [h, hc]
    unfold Cursor.next
    simp [hp]
  · have hp : cur.peek code 0 = NUL := by
      unfold Cursor.peek; simp [Nat.not_lt.2 h]
    unfold Cursor.next
    simp [hp]

theorem skipLoop_spec (code : List Char) (n : Nat) (last : Char) (cur : Cursor) :
    (Cursor.skipLoop code n last cur).2.index = cur.index + min n (nonNulRun code cur.index) ∧
    (Cursor.skipLoop code n last cur).1 =
      if min n (nonNulRun code cur.index) = 0 then last
      else code.getD (cur.index + min n (nonNulRun code cur.index) - 1) NUL := by
  induction n generalizing last cur with
  | zero => simp [Cursor.skipLoop]
  | succ n ih =>
    unfold Cursor.skipLoop
    cases hl : code.drop cur.index with
    | nil =>
      have hp : cur.peek code 0 = NUL := by
        rw [peek_eq_getD]
        have : code.length ≤ cur.index := by simpa using hl
        rw [Nat.add_zero, List.getD_eq_default _ _ this]
      simp [hp, nonNulRun, hl]
    | cons c tl =>
      obtain ⟨hp, -⟩ := drop_cons_peek hl
      by_cases hc : c = NUL
      · subst hc
        simp [hp, nonNulRun, hl]
      · obtain ⟨hi, hr⟩ := drop_cons_next hl hc
        have hn1 : (cur.next code).1 = c := by
          unfold Cursor.next; simp only [hp, hc, if_false]; split <;> rfl
        have hrun : nonNulRun code cur.index = nonNulRun code (cur.next code).2.index + 1 := by
          simp [nonNulRun, hl, hr, List.takeWhile_cons, hc]
        obtain ⟨h₁, h₂⟩ := ih (cur.next code).1 (cur.next code).2
        have hmin : min (n + 1) (nonNulRun code cur.index)
            = min n (nonNulRun code (cur.next code).2.index) + 1 := by
          rw [hrun]; omega
        have hget : code.getD cur.index NUL = c := by
          rw [← hp, peek_eq_getD]; rfl
        simp only [hp, ne_eq, hc, not_false_eq_true, if_true]
        refine ⟨by rw [h₁, hmin, hi]; omega, ?_⟩
        rw [h₂, hmin, hn1]
        simp only [Nat.add_one_ne_zero, if_false]
        split
        · rename_i h0
          have : cur.index + (min n (nonNulRun code (cur.next code).2.index) + 1) - 1
              = cur.index := by omega
          rw [this, hget]
        · rename_i h0
          congr 1
          rw [hi]; omega

theorem nonNulRun_of_NUL_free (code : List Char) (i : Nat) (hn : ∀ c ∈ code, c ≠ NUL) :
    nonNulRun code i = code.length - i := by
  unfold nonNulRun
  have : (code.drop i).takeWhile (fun c => c != NUL) = code.drop i := by
    rw [List.takeWhile_eq_self_iff]
    intro c hc
    simpa using hn c (List.mem_of_mem_drop hc)
  rw [this, List.length_drop]

/-! ## Whole runs -/

theorem mainLoop_of_runN {code : List Char} {inner n : Nat} {st st' : State}
    (h : runN code inner n st = some st') (he : st'.cur.eof code = true) (fuel : Nat)
    (hf : n < fuel) : mainLoop code inner fuel st = some st' := by
  induction n generalizing st fuel with
  | zero =>
    obtain ⟨f, rfl⟩ : ∃ f, fuel = f + 1 := ⟨fuel - 1, by omega⟩
    cases h
    unfold mainLoop
    simp [he]
  | succ n ih =>
    obtain ⟨f, rfl⟩ : ∃ f, fuel = f + 1 := ⟨fuel - 1, by omega⟩
    unfold runN at h
    unfold mainLoop
    split
    · rename_i hc
      rw [if_pos hc] at h
      exact h
    · rename_i hc
      rw [if_neg hc, Option.bind_eq_some] at h
      obtain ⟨s, hs, hr⟩ := h
      rw [hs]
      exact ih hr f (by omega)

theorem tokenize_of_runN {code : List Char} {fuel n : Nat} {st' : State}
    (h : runN code fuel n State.init = some st') (he : st'.cur.eof code = true)
    (hf : n < fuel) : tokenize code fuel = some st'.tokens := by
  unfold tokenize
  rw [mainLoop_of_runN h he fuel hf]
  rfl

theorem loopBody_blank {code : List Char} {st : State}
    (h : isblank (st.cur.peek code 0) = true) (fuel : Nat) :
    loopBody code fuel st = (whileNext code (peekIs code isblank) fuel st.cur).map
      (fun k => { cur := k, tokens := st.tokens }) := by
  unfold loopBody
  simp only
  rw [if_pos h]

theorem loopBody_lineComment {code : List Char} {st : State}
    (h₀ : st.cur.peek code 0 = '/') (h₁ : st.cur.peek code 1 = '/') (fuel : Nat) :
    loopBody code fuel st =
      (whileNext code (peekIs code (fun d => d != NEWLINE)) fuel st.cur).map
        (emit st.tokens token_kind.Comment st.cur.index st.cur.line st.cur.col) := by
  unfold loopBody
  simp only [h₀, h₁]
  rw [if_neg (by decide), if_pos ⟨trivial, trivial⟩]

theorem loopBody_blockComment {code : List Char} {st : State}
    (h₀ : st.cur.peek code 0 = '/') (h₁ : st.cur.peek code 1 = '*') (fuel : Nat) :
    loopBody code fuel st =
      (whileNext code (notCloser code) fuel (st.cur.skip code 2).2).map (fun k =>
        emit st.tokens token_kind.Comment st.cur.index st.cur.line st.cur.col
          (if !k.eof code then (k.skip code 2).2 else k)) := by
  unfold loopBody
  simp only [h₀, h₁]
  rw [if_neg (by decide), if_neg (fun h => absurd h.2 (by decide)), if_pos ⟨trivial, trivial⟩]

/-! ## Comments -/

theorem whileNext_notCloser {code : List Char} (l : List Char) (cur : Cursor) (fuel : Nat)
    (hd : code.drop cur.index = l) (hn : ∀ c ∈ l, c ≠ NUL) (hf : l.length < fuel) :
    ∃ k, whileNext code (notCloser code) fuel cur = some k ∧
      k.index = cur.index + (closerOffset l).getD l.length ∧
      code.drop k.index = l.drop ((closerOffset l).getD l.length) := by
  induction l generalizing cur fuel with
  | nil =>
    obtain ⟨f, rfl⟩ : ∃ f, fuel = f + 1 := ⟨fuel - 1, by omega⟩
    refine ⟨cur, ?_, by simp [closerOffset], by simpa [closerOffset] using hd⟩
    unfold whileNext
    rw [if_neg (by simp [notCloser, drop_nil_eof hd])]
  | cons c cs ih =>
    obtain ⟨f, rfl⟩ : ∃ f, fuel = f + 1 := ⟨fuel - 1, by omega⟩
    obtain ⟨hp, he⟩ := drop_cons_peek hd
    have hp1 : cs.head? = some '/' ↔ cur.peek code 1 = '/' := by
      rcases cs with _ | ⟨d, ds⟩
      · have : cur.peek code 1 = NUL := by
          have hlen : code.length = cur.index + 1 := by
            have := congrArg List.length hd
            simp at this; omega
          unfold Cursor.peek; simp [hlen]
        rw [this]; simp; decide
      · rw [drop_cons_peek1 hd]; simp
    by_cases hc : c = '*' ∧ cs.head? = some '/'
    · refine ⟨cur, ?_, by simp [closerOffset, hc], by simpa [closerOffset, hc] using hd⟩
      unfold whileNext
      rw [if_neg (by simp [notCloser, he, hp, hc.1, hp1.1 hc.2])]
    · obtain ⟨hi, hr⟩ := drop_cons_next hd (hn c (List.mem_cons_self _ _))
      obtain ⟨k, hk, hki, hkr⟩ := ih (cur.next code).2 f hr
        (fun d hd => hn d (List.mem_cons_of_mem _ hd)) (by simp at hf; omega)
      have hoff : (closerOffset (c :: cs)).getD (c :: cs).length
          = (closerOffset cs).getD cs.length + 1 := by
        simp only [closerOffset, hc, if_false]
        cases closerOffset cs <;> simp
      refine ⟨k, ?_, by rw [hki, hi, hoff]; omega, by rw [hkr, hoff]; rfl⟩
      unfold whileNext
      rw [if_pos]
      · exact hk
      · simp only [notCloser, he, hp, Bool.not_false, Bool.true_and, Bool.not_eq_true',
          Bool.and_eq_false_iff, beq_eq_false_iff_ne, ne_eq]
        by_cases h1 : c = '*'
        · right
          exact fun h2 => hc ⟨h1, hp1.2 h2⟩
        · left; exact h1

theorem closerOffset_some {l : List Char} {n : Nat} (h : closerOffset l = some n) :
    isCloserAt l n ∧ ∀ m, m < n → ¬ isCloserAt l m := by
  induction l generalizing n with
  | nil => simp [closerOffset] at h
  | cons c cs ih =>
    unfold closerOffset at h
    split at h
    · rename_i hc
      cases h
      refine ⟨⟨by simp [hc.1], ?_⟩, fun m hm => absurd hm (Nat.not_lt_zero _)⟩
      rcases cs with _ | ⟨d, ds⟩
      · simp at hc
      · simpa using hc.2
    · rename_i hc
      rw [Option.map_eq_some'] at h
      obtain ⟨n', hn', rfl⟩ := h
      obtain ⟨h₁, h₂⟩ := ih hn'
      refine ⟨by simpa [isCloserAt] using h₁, fun m hm hcl => ?_⟩
      rcases m with _ | m
      · apply hc
        obtain ⟨a, b⟩ := hcl
        refine ⟨by simpa using a, ?_⟩
        rcases cs with _ | ⟨d, ds⟩
        · simp at b
        · simpa using b
      · exact h₂ m (by omega) (by simpa [isCloserAt] using hcl)

theorem closerOffset_none {l : List Char} (h : closerOffset l = none) (m : Nat) :
    ¬ isCloserAt l m := by
  induction l generalizing m with
  | nil => simp [isCloserAt]
  | cons c cs ih =>
    unfold closerOffset at h
    split at h
    · cases h
    · rename_i hc
      rw [Option.map_eq_none'] at h
      intro hcl
      rcases m with _ | m
      · apply hc
        obtain ⟨a, b⟩ := hcl
        refine ⟨by simpa using a, ?_⟩
        rcases cs with _ | ⟨d, ds⟩
        · simp at b
        · simpa using b
      · exact ih h m (by simpa [isCloserAt] using hcl)

theorem closerOffset_eq_of_first {l : List Char} {n : Nat} (h₁ : isCloserAt l n)
    (h₂ : ∀ m, m < n → ¬ isCloserAt l m) : closerOffset l = some n := by
  cases h : closerOffset l with
  | none => exact absurd h₁ (closerOffset_none h n)
  | some k =>
    obtain ⟨hk₁, hk₂⟩ := closerOffset_some h
    have : ¬ k < n := fun hlt => h₂ k hlt hk₁
    have : ¬ n < k := fun hlt => hk₂ n hlt h₁
    congr 1
    omega

theorem isCloserAt_drop (code : List Char) (i n : Nat) :
    isCloserAt (code.drop i) n ↔ isCloserAt code (i + n) := by
  simp [isCloserAt, List.getElem?_drop, Nat.add_assoc]

theorem line_comment_first (rest : List Char) (fuel : Nat)
    (hn : ∀ c ∈ '/' :: '/' :: rest, c ≠ NUL) (hf : ('/' :: '/' :: rest).length < fuel) :
    ∃ k, loopBody ('/' :: '/' :: rest) fuel State.init
        = some (emit [] token_kind.Comment 0 1 1 k) ∧
      k.index = (('/' :: '/' :: rest).takeWhile (fun d => d != NEWLINE)).length := by
  have h0 : ('/' :: '/' :: rest).drop State.init.cur.index = '/' :: '/' :: rest := rfl
  obtain ⟨hp, -⟩ := drop_cons_peek h0
  have hp1 := drop_cons_peek1 h0
  have hle := (List.takeWhile_sublist (l := '/' :: '/' :: rest) (fun d => d != NEWLINE)).length_le
  obtain ⟨k, hk, hki, -⟩ := whileNext_takeWhile (fun d => d != NEWLINE) _ State.init.cur fuel
    h0 hn (by omega)
  refine ⟨k, ?_, by simpa [State.init, Cursor.init] using hki⟩
  rw [loopBody_lineComment hp hp1, hk]
  rfl

theorem drop_of_isCloserAt {l : List Char} {n : Nat} (h : isCloserAt l n) :
    l.drop n = '*' :: '/' :: l.drop (n + 2) := by
  obtain ⟨h₁, h₂⟩ := h
  obtain ⟨hl₁, hg₁⟩ := List.getElem?_eq_some.1 h₁
  obtain ⟨hl₂, hg₂⟩ := List.getElem?_eq_some.1 h₂
  rw [List.drop_eq_getElem_cons hl₁, hg₁, List.drop_eq_getElem_cons hl₂, hg₂]

theorem block_comment_first (rest : List Char) (fuel : Nat)
    (hn : ∀ c ∈ '/' :: '*' :: rest, c ≠ NUL) (hf : ('/' :: '*' :: rest).length < fuel) :
    ∃ k, loopBody ('/' :: '*' :: rest) fuel State.init
        = some (emit [] token_kind.Comment 0 1 1 k) ∧
      k.index = match closerOffset rest with
        | some n => n + 4
        | none => rest.length + 2 := by
  have h0 : ('/' :: '*' :: rest).drop State.init.cur.index = '/' :: '*' :: rest := rfl
  obtain ⟨hp, -⟩ := drop_cons_peek h0
  have hp1 := drop_cons_peek1 h0
  obtain ⟨hi, hr⟩ := drop_cons_skip2 h0 (by decide) (by decide)
  have hi2 : (State.init.cur.skip ('/' :: '*' :: rest) 2).2.index = 2 := by simpa using hi
  have hnr : ∀ c ∈ rest, c ≠ NUL := fun c hc =>
    hn c (List.mem_cons_of_mem _ (List.mem_cons_of_mem _ hc))
  obtain ⟨k, hk, hki, hkr⟩ := whileNext_notCloser rest _ fuel hr hnr
    (by simp at hf; omega)
  rw [hi2] at hki
  have hb := loopBody_blockComment hp hp1 fuel
  rw [hk] at hb
  cases hoff : closerOffset rest with
  | none =>
    rw [hoff] at hki hkr
    simp only [Option.getD_none] at hki hkr
    have he : k.eof ('/' :: '*' :: rest) = true := drop_nil_eof (by simpa using hkr)
    refine ⟨k, ?_, by show k.index = rest.length + 2; omega⟩
    rw [hb]
    simp [he]
    rfl
  | some n =>
    rw [hoff] at hki hkr
    simp only [Option.getD_some] at hki hkr
    have hcl := (closerOffset_some hoff).1
    rw [drop_of_isCloserAt hcl] at hkr
    obtain ⟨-, he⟩ := drop_cons_peek hkr
    have hstar : ∀ c ∈ rest.drop (n + 2), c ≠ NUL := fun c hc => hnr c (List.mem_of_mem_drop hc)
    obtain ⟨hs, -⟩ := drop_cons_skip2 hkr (by decide) (by decide)
    refine ⟨(k.skip ('/' :: '*' :: rest) 2).2, ?_, by
      show (k.skip ('/' :: '*' :: rest) 2).2.index = n + 4; omega⟩
    rw [hb]
    simp [he]
    rfl

/-! ## Literals that are not closed -/

theorem drop_single_skip2 {code : List Char} {cur : Cursor} {c : Char}
    (h : code.drop cur.index = [c]) (hc : c ≠ NUL) :
    (cur.skip code 2).2.index = cur.index + 1 ∧ code.drop (cur.skip code 2).2.index = [] := by
  obtain ⟨hp, -⟩ := drop_cons_peek h
  obtain ⟨hn, hr⟩ := drop_cons_next h hc
  have he := drop_nil_eof hr
  have hp' : (cur.next code).2.peek code 0 = NUL := by
    unfold Cursor.peek
    simp only [Cursor.eof, decide_eq_true_eq] at he
    simp [Nat.not_lt.2 he]
  have hs : (cur.skip code 2).2 = (cur.next code).2 := by
    unfold Cursor.skip Cursor.skipLoop
    rw [if_pos (by rw [hp]; exact hc)]
    unfold Cursor.skipLoop
    rw [if_neg (by simp [hp'])]
  rw [hs]
  exact ⟨hn, hr⟩

theorem stringLoop_open {code : List Char} (units : List (List Char)) (tail : List Char)
    (cur : Cursor) (fuel : Nat)
    (hd : code.drop cur.index = units.flatten ++ tail)
    (ht : tail = [] ∨ tail = [BACKSLASH])
    (hu : ∀ u ∈ units, isUnit DQUOTE u = true) (hn : ∀ c ∈ units.flatten, c ≠ NUL)
    (hf : units.length + 1 < fuel) :
    ∃ k, stringLoop code fuel cur = some k ∧ k.eof code = true := by
  induction units generalizing cur fuel with
  | nil =>
    obtain ⟨f, rfl⟩ : ∃ f, fuel = f + 2 := ⟨fuel - 2, by simp at hf; omega⟩
    simp only [List.flatten_nil, List.nil_append] at hd
    rcases ht with rfl | rfl
    · refine ⟨cur, ?_, drop_nil_eof hd⟩
      unfold stringLoop
      rw [if_pos (drop_nil_eof hd)]
    · obtain ⟨hp, he⟩ := drop_cons_peek hd
      obtain ⟨-, hr⟩ := drop_single_skip2 hd (by decide)
      refine ⟨(cur.skip code 2).2, ?_, drop_nil_eof hr⟩
      unfold stringLoop
      rw [if_neg (by simp [he]), hp, if_pos rfl]
      unfold stringLoop
      rw [if_pos (drop_nil_eof hr)]
  | cons u us ih =>
    obtain ⟨f, rfl⟩ : ∃ f, fuel = f + 1 := ⟨fuel - 1, by simp at hf; omega⟩
    have hus : ∀ v ∈ us, isUnit DQUOTE v = true := fun v hv => hu v (List.mem_cons_of_mem _ hv)
    have hns : ∀ c ∈ us.flatten, c ≠ NUL := fun c hc =>
      hn c (by simp only [List.flatten_cons, List.mem_append]; exact Or.inr hc)
    have hfs : us.length + 1 < f := by simp at hf; omega
    have huu := hu u (List.mem_cons_self _ _)
    rcases u with _ | ⟨c, _ | ⟨d, _ | ⟨e, t⟩⟩⟩
    · simp [isUnit] at huu
    · simp only [isUnit, Bool.and_eq_true, bne_iff_ne, ne_eq] at huu
      simp only [List.flatten_cons, List.singleton_append, List.cons_append] at hd
      obtain ⟨hp, he⟩ := drop_cons_peek hd
      obtain ⟨-, hr⟩ := drop_cons_next hd (hn c (by simp))
      obtain ⟨k, hk, hke⟩ := ih (cur.next code).2 f hr hus hns hfs
      refine ⟨k, ?_, hke⟩
      unfold stringLoop
      rw [if_neg (by simp [he]), hp, if_neg huu.2, if_neg huu.1]
      exact hk
    · simp only [isUnit, beq_iff_eq] at huu
      subst huu
      simp only [List.flatten_cons, List.cons_append, List.nil_append] at hd
      obtain ⟨hp, he⟩ := drop_cons_peek hd
      obtain ⟨-, hr⟩ := drop_cons_skip2 hd (by decide) (hn d (by simp))
      obtain ⟨k, hk, hke⟩ := ih (cur.skip code 2).2 f hr hus hns hfs
      refine ⟨k, ?_, hke⟩
      unfold stringLoop
      rw [if_neg (by simp [he]), hp, if_pos rfl]
      exact hk
    · simp [isUnit] at huu

theorem charLoop_open {code : List Char} (units : List (List Char)) (tail : List Char)
    (s : CharScan) (fuel : Nat)
    (hd : code.drop s.cur.index = units.flatten ++ tail)
    (ht : tail = [] ∨ tail = [BACKSLASH])
    (hu : ∀ u ∈ units, isUnit SQUOTE u = true) (hn : ∀ c ∈ units.flatten, c ≠ NUL)
    (hf : units.length + 1 < fuel) :
    ∃ r, charLoop code fuel s = some r ∧ r.cur.eof code = true := by
  induction units generalizing s fuel with
  | nil =>
    obtain ⟨f, rfl⟩ : ∃ f, fuel = f + 2 := ⟨fuel - 2, by simp at hf; omega⟩
    simp only [List.flatten_nil, List.nil_append] at hd
    rcases ht with rfl | rfl
    · refine ⟨s, ?_, drop_nil_eof hd⟩
      unfold charLoop
      rw [if_pos (drop_nil_eof hd)]
    · obtain ⟨hp, he⟩ := drop_cons_peek hd
      obtain ⟨-, hr⟩ := drop_single_skip2 hd (by decide)
      refine ⟨{ cur := (s.cur.skip code 2).2, i := wrapInt32 (s.i + 1), escape := true }, ?_,
        drop_nil_eof hr⟩
      unfold charLoop
      rw [if_neg (by simp [he]), hp, if_pos rfl]
      unfold charLoop
      rw [if_pos (drop_nil_eof hr)]
  | cons u us ih =>
    obtain ⟨f, rfl⟩ : ∃ f, fuel = f + 1 := ⟨fuel - 1, by simp at hf; omega⟩
    have hus : ∀ v ∈ us, isUnit SQUOTE v = true := fun v hv => hu v (List.mem_cons_of_mem _ hv)
    have hns : ∀ c ∈ us.flatten, c ≠ NUL := fun c hc =>
      hn c (by simp only [List.flatten_cons, List.mem_append]; exact Or.inr hc)
    have hfs : us.length + 1 < f := by simp at hf; omega
    have huu := hu u (List.mem_cons_self _ _)
    rcases u with _ | ⟨c, _ | ⟨d, _ | ⟨e, t⟩⟩⟩
    · simp [isUnit] at huu
    · simp only [isUnit, Bool.and_eq_true, bne_iff_ne, ne_eq] at huu
      simp only [List.flatten_cons, List.singleton_append, List.cons_append] at hd
      obtain ⟨hp, he⟩ := drop_cons_peek hd
      obtain ⟨-, hr⟩ := drop_cons_next hd (hn c (by simp))
      obtain ⟨r, hk, hke⟩ :=
        ih { cur := (s.cur.next code).2, i := wrapInt32 (s.i + 1), escape := s.escape } f hr
          hus hns hfs
      refine ⟨r, ?_, hke⟩
      unfold charLoop
      rw [if_neg (by simp [he]), hp, if_neg huu.2, if_neg huu.1]
      exact hk
    · simp only [isUnit, beq_iff_eq] at huu
      subst huu
      simp only [List.flatten_cons, List.cons_append, List.nil_append] at hd
      obtain ⟨hp, he⟩ := drop_cons_peek hd
      obtain ⟨-, hr⟩ := drop_cons_skip2 hd (by decide) (hn d (by simp))
      obtain ⟨r, hk, hke⟩ :=
        ih { cur := (s.cur.skip code 2).2, i := wrapInt32 (s.i + 1), escape := true } f hr
          hus hns hfs
      refine ⟨r, ?_, hke⟩
      unfold charLoop
      rw [if_neg (by simp [he]), hp, if_pos rfl]
      exact hk
    · simp [isUnit] at huu

theorem eof_index_of_adv {code : List Char} {k : Cursor} (ha : Adv code Cursor.init k)
    (he : k.eof code = true) : k.index = code.length :=
  eof_index (ha.2 (init_WF code)) he

theorem open_string_tokens (units : List (List Char)) (tail : List Char) (fuel : Nat)
    (ht : tail = [] ∨ tail = [BACKSLASH])
    (hu : ∀ u ∈ units, isUnit DQUOTE u = true) (hn : ∀ c ∈ units.flatten, c ≠ NUL)
    (hf : (DQUOTE :: (units.flatten ++ tail)).length < fuel) :
    tokenize (DQUOTE :: (units.flatten ++ tail)) fuel = some
      [{ kind := token_kind.String, start := 0,
         len := (DQUOTE :: (units.flatten ++ tail)).length, line := 1, col := 1 }] := by
  have hul := units_length_le units hu
  have hlen : (DQUOTE :: (units.flatten ++ tail)).length
      = units.flatten.length + tail.length + 1 := by
    rw [List.length_cons, List.length_append]
  have h0 : (DQUOTE :: (units.flatten ++ tail)).drop State.init.cur.index
      = DQUOTE :: (units.flatten ++ tail) := rfl
  obtain ⟨hp, -⟩ := drop_cons_peek h0
  obtain ⟨-, hr⟩ := drop_cons_next h0 (by decide)
  obtain ⟨k, hk, hke⟩ := stringLoop_open units tail _ fuel hr ht hu hn (by omega)
  have hb := loopBody_string hp fuel
  rw [hk] at hb
  have hidx := eof_index_of_adv
    ((next_adv (DQUOTE :: (units.flatten ++ tail)) State.init.cur).trans (stringLoop_adv hk)) hke
  have := tokenize_single (by simp) (by omega) hb hke
  rw [this]
  simp [emit, State.init, Cursor.init, hidx]

theorem open_char_tokens (units : List (List Char)) (tail : List Char) (fuel : Nat)
    (ht : tail = [] ∨ tail = [BACKSLASH])
    (hu : ∀ u ∈ units, isUnit SQUOTE u = true) (hn : ∀ c ∈ units.flatten, c ≠ NUL)
    (hf : (SQUOTE :: (units.flatten ++ tail)).length < fuel) :
    ∃ kind, (kind = token_kind.Char ∨ kind = token_kind.MultiCharLiteral) ∧
      tokenize (SQUOTE :: (units.flatten ++ tail)) fuel = some
        [{ kind := kind, start := 0,
           len := (SQUOTE :: (units.flatten ++ tail)).length, line := 1, col := 1 }] := by
  have hul := units_length_le units hu
  have hlen : (SQUOTE :: (units.flatten ++ tail)).length
      = units.flatten.length + tail.length + 1 := by
    rw [List.length_cons, List.length_append]
  have h0 : (SQUOTE :: (units.flatten ++ tail)).drop State.init.cur.index
      = SQUOTE :: (units.flatten ++ tail) := rfl
  obtain ⟨hp, -⟩ := drop_cons_peek h0
  obtain ⟨-, hr⟩ := drop_cons_next h0 (by decide)
  obtain ⟨r, hk, hke⟩ := charLoop_open units tail
    { cur := (State.init.cur.next (SQUOTE :: (units.flatten ++ tail))).2, i := 0,
      escape := false } fuel hr ht hu hn (by omega)
  have hb := loopBody_char hp fuel
  rw [hk] at hb
  have hidx := eof_index_of_adv
    ((next_adv (SQUOTE :: (units.flatten ++ tail)) State.init.cur).trans (charLoop_adv hk)) hke
  have := tokenize_single (by simp) (by omega) hb hke
  refine ⟨if r.i ≤ 1 ∨ r.escape = true then token_kind.Char else token_kind.MultiCharLiteral,
    ?_, ?_⟩
  · split
    · exact Or.inl rfl
    · exact Or.inr rfl
  · rw [this]
    simp [emit, State.init, Cursor.init, hidx]

/-! ## Integer lexemes -/

theorem takeWhile_stop (p : Char → Bool) (ds tail : List Char) (hd : ∀ d ∈ ds, p d = true)
    (ht : ∀ b, tail.head? = some b → p b = false) : (ds ++ tail).takeWhile p = ds := by
  rw [List.takeWhile_append_of_pos hd]
  rcases tail with _ | ⟨b, r⟩
  · simp
  · simp [List.takeWhile_cons, ht b rfl]

theorem isxdigit_ne_NUL {c : Char} (h : isxdigit c = true) : c ≠ NUL := by
  rintro rfl
  revert h
  decide

/-- What may follow a digit run here: nothing, a space, a tab or a newline. -/
theorem stop_facts {tail : List Char}
    (ht : ∀ b, tail.head? = some b → b = ' ' ∨ b = Char.ofNat 9 ∨ b = NEWLINE) (b : Char)
    (hb : tail.head? = some b) :
    isdigit b = false ∧ isodigit b = false ∧ isxdigit b = false ∧ ¬(b = 'x' ∨ b = 'X') := by
  rcases ht b hb with rfl | rfl | rfl <;> decide

theorem intLexeme_facts {lex : List Char} (hl : isIntLexeme lex = true) (tail : List Char)
    (ht : ∀ b, tail.head? = some b → b = ' ' ∨ b = Char.ofNat 9 ∨ b = NEWLINE) :
    (∃ c₀ rest, lex = c₀ :: rest ∧ isdigit c₀ = true) ∧ (∀ c ∈ lex, c ≠ NUL) ∧
      digitRunLength (lex ++ tail) = lex.length := by
  rcases lex with _ | ⟨c, rest⟩
  · simp [isIntLexeme] at hl
  · by_cases hz : c = '0'
    · subst hz
      rcases rest with _ | ⟨x, rest'⟩
      · refine ⟨⟨_, _, rfl, by decide⟩, by simp; decide, ?_⟩
        rcases tail with _ | ⟨b, r⟩
        · simp [digitRunLength]
        · obtain ⟨-, h₂, -, h₄⟩ := stop_facts ht b rfl
          simp [digitRunLength, h₄, List.takeWhile_cons, h₂]
      · by_cases hx : x = 'x' ∨ x = 'X'
        · simp only [isIntLexeme, if_true, hx, Bool.and_eq_true, List.all_eq_true] at hl
          refine ⟨⟨_, _, rfl, by decide⟩, ?_, ?_⟩
          · intro c hc
            rcases List.mem_cons.1 hc with rfl | hc
            · decide
            rcases List.mem_cons.1 hc with rfl | hc
            · rcases hx with rfl | rfl <;> decide
            · exact isxdigit_ne_NUL (hl.2 c hc)
          · simp only [List.cons_append, digitRunLength, if_true, hx]
            rw [takeWhile_stop isxdigit rest' tail hl.2
              (fun b hb => (stop_facts ht b hb).2.2.1)]
            simp; omega
        · simp only [isIntLexeme, if_true, hx, if_false, List.all_eq_true] at hl
          refine ⟨⟨_, _, rfl, by decide⟩, ?_, ?_⟩
          · intro c hc
            rcases List.mem_cons.1 hc with rfl | hc
            · decide
            · exact (isodigit_facts (hl c hc)).1
          · simp only [List.cons_append, digitRunLength, if_true, hx, if_false]
            rw [← List.cons_append, takeWhile_stop isodigit (x :: rest') tail hl
              (fun b hb => (stop_facts ht b hb).2.1)]
            simp; omega
    · simp only [isIntLexeme, hz, if_false, Bool.and_eq_true, List.all_eq_true] at hl
      refine ⟨⟨_, _, rfl, hl.1⟩, ?_, ?_⟩
      · intro c hc
        rcases List.mem_cons.1 hc with rfl | hc
        · exact isdigit_ne_NUL hl.1
        · exact isdigit_ne_NUL (hl.2 c hc)
      · simp only [List.cons_append, digitRunLength, hz, if_false]
        rw [takeWhile_stop isdigit rest tail hl.2 (fun b hb => (stop_facts ht b hb).1)]
        simp; omega

theorem number_phase {lex : List Char} (hl : isIntLexeme lex = true) (tail : List Char)
    (fuel : Nat) (ht : ∀ b, tail.head? = some b → b = ' ' ∨ b = Char.ofNat 9 ∨ b = NEWLINE)
    (hn : ∀ c ∈ tail, c ≠ NUL) (hf : (lex ++ tail).length < fuel) :
    ∃ k, loopBody (lex ++ tail) fuel State.init = numberTail (lex ++ tail) fuel [] 0 1 1 k ∧
      k.index = lex.length ∧ (lex ++ tail).drop k.index = tail ∧
      ∀ d ∈ lex, isblank d = false := by
  obtain ⟨⟨c₀, rest, rfl, hdig⟩, hnl, hrun⟩ := intLexeme_facts hl tail ht
  have hnn : ∀ c ∈ c₀ :: (rest ++ tail), c ≠ NUL := by
    intro c hc
    rw [← List.cons_append, List.mem_append] at hc
    rcases hc with hc | hc
    · exact hnl c hc
    · exact hn c hc
  obtain ⟨k, hk, hki, -, hkb⟩ := digits_phase c₀ (rest ++ tail) fuel hdig hnn hf
  rw [← List.cons_append] at hki hkb
  rw [hrun] at hki
  refine ⟨k, hk, hki, by rw [hki]; exact List.drop_left _ _, fun d hd => hkb d ?_⟩
  rw [hki, List.take_left]
  exact hd

theorem numberTail_blank {code : List Char} {fuel : Nat} {tokens : List Token}
    {start : Nat} {line col : Int} {cur : Cursor} (h : isblank (cur.peek code 0) = true) :
    numberTail code fuel tokens start line col cur
      = some (emit tokens token_kind.Number start line col cur) := by
  unfold numberTail
  rw [if_neg (by simp [h])]

theorem numberTail_eof {code : List Char} {fuel : Nat} {tokens : List Token}
    {start : Nat} {line col : Int} {cur : Cursor} (h : cur.eof code = true) (hf : 0 < fuel) :
    numberTail code fuel tokens start line col cur
      = some (emit tokens token_kind.Unknown start line col cur) := by
  obtain ⟨f, rfl⟩ : ∃ f, fuel = f + 1 := ⟨fuel - 1, by omega⟩
  have hp : cur.peek code 0 = NUL := by
    unfold Cursor.peek
    simp only [Cursor.eof, decide_eq_true_eq] at h
    simp [Nat.not_lt.2 h]
  unfold numberTail
  rw [hp, if_pos (by decide)]
  unfold whileNext
  rw [if_neg (by simp [peekIs, h])]
  rfl

theorem number_tokens {lex : List Char} (hl : isIntLexeme lex = true) (b : Char)
    (hb : isblank b = true) (fuel : Nat) (hf : (lex ++ [b]).length < fuel) :
    tokenize (lex ++ [b]) fuel = some
      [{ kind := token_kind.Number, start := 0, len := lex.length, line := 1, col := 1 }] := by
  have hb' : b = ' ' ∨ b = Char.ofNat 9 := by
    simpa [isblank] using hb
  have hbn : b ≠ NUL := by
    rcases hb' with rfl | rfl <;> decide
  obtain ⟨k, hk, hki, hkd, -⟩ := number_phase hl [b] fuel
    (fun c hc => by
      obtain rfl : b = c := by simpa using hc
      rcases hb' with rfl | rfl
      · exact Or.inl rfl
      · exact Or.inr (Or.inl rfl))
    (fun c hc => by
      obtain rfl : c = b := by simpa using hc
      exact hbn) hf
  obtain ⟨hp, he⟩ := drop_cons_peek hkd
  rw [numberTail_blank (by rw [hp]; exact hb)] at hk
  -- the second iteration skips the blank
  obtain ⟨k', hk', hki', hkd'⟩ := whileNext_takeWhile isblank [b] k fuel hkd
    (fun c hc => by
      obtain rfl : c = b := by simpa using hc
      exact hbn)
    (by
      have := (List.takeWhile_sublist (l := [b]) isblank).length_le
      simp at this hf
      omega)
  have hb2 : loopBody (lex ++ [b]) fuel (emit [] token_kind.Number 0 1 1 k)
      = some { cur := k', tokens := (emit [] token_kind.Number 0 1 1 k).tokens } := by
    rw [loopBody_blank (by show isblank (k.peek (lex ++ [b]) 0) = true; rw [hp]; exact hb), ]
    show Option.map _ (whileNext (lex ++ [b]) (peekIs (lex ++ [b]) isblank) fuel k) = _
    rw [hk']
    rfl
  have hke' : k'.eof (lex ++ [b]) = true := by
    apply drop_nil_eof
    rw [hkd']
    simp [List.dropWhile_cons, hb]
  have hne : State.init.cur.eof (lex ++ [b]) = false := by
    simp [State.init, Cursor.init, Cursor.eof]
  have hrun : runN (lex ++ [b]) fuel 2 State.init
      = some { cur := k', tokens := (emit [] token_kind.Number 0 1 1 k).tokens } := by
    unfold runN
    rw [if_neg (by simp [hne]), hk, Option.some_bind]
    unfold runN
    rw [if_neg (by show ¬ k.eof (lex ++ [b]) = true; simp [he]), hb2, Option.some_bind]
    rfl
  have hlpos : 0 < lex.length := by
    obtain ⟨⟨c₀, rest, rfl, -⟩, -, -⟩ := intLexeme_facts hl [] (fun b hb => by simp at hb)
    simp
  have hlen : (lex ++ [b]).length = lex.length + 1 := by simp
  rw [tokenize_of_runN hrun hke' (by omega)]
  simp [emit, hki]

theorem number_at_end {lex : List Char} (hl : isIntLexeme lex = true) (fuel : Nat)
    (hf : lex.length < fuel) :
    tokenize lex fuel = some
      [{ kind := token_kind.Unknown, start := 0, len := lex.length, line := 1, col := 1 }] := by
  have hf' : (lex ++ []).length < fuel := by simpa using hf
  obtain ⟨k, hk, hki, hkd, -⟩ := number_phase hl [] fuel (fun b hb => by simp at hb)
    (fun c hc => by simp at hc) hf'
  rw [List.append_nil] at hk hkd
  have hke := drop_nil_eof hkd
  rw [numberTail_eof hke (by omega)] at hk
  obtain ⟨⟨c₀, rest, rfl, -⟩, -, -⟩ := intLexeme_facts hl [] (fun b hb => by simp at hb)
  have := tokenize_single (by simp) (by simp at hf; omega) hk hke
  rw [this]
  simp [emit, hki]

theorem number_before_newline {lex : List Char} (hl : isIntLexeme lex = true)
    (rest : List Char) (fuel : Nat) (hn : ∀ c ∈ lex ++ NEWLINE :: rest, c ≠ NUL)
    (hf : (lex ++ NEWLINE :: rest).length < fuel) :
    ∃ k, loopBody (lex ++ NEWLINE :: rest) fuel State.init
        = some (emit [] token_kind.Unknown 0 1 1 k) ∧
      k.index = (nonBlankRun (lex ++ NEWLINE :: rest)).length := by
  obtain ⟨⟨c₀, r, rfl, hdig⟩, -, hrun⟩ := intLexeme_facts hl (NEWLINE :: rest)
    (fun b hb => by
      obtain rfl : NEWLINE = b := by simpa using hb
      exact Or.inr (Or.inr rfl))
  have hget : (c₀ :: r ++ NEWLINE :: rest)[(c₀ :: r).length]? = some NEWLINE := by
    rw [List.getElem?_append_right (Nat.le_refl _)]
    simp
  exact glued_digits _ fuel c₀ NEWLINE hn rfl hdig (by rw [hrun]; exact hget) (by decide) hf

theorem nonBlankRun_self {l : List Char} (h : ∀ d ∈ l, isblank d = false) :
    nonBlankRun l = l := by
  unfold nonBlankRun
  rw [List.takeWhile_eq_self_iff]
  intro d hd
  simp [h d hd]

/-! ## Counters past the 32-bit range -/

theorem lineAt_replicate_append (n : Nat) (c : Char) (rest : List Char) :
    lineAt (List.replicate n c ++ rest) n = if c = NEWLINE then n + 1 else 1 := by
  unfold lineAt
  rw [List.take_left' (List.length_replicate n c), List.count_replicate]
  by_cases h : c = NEWLINE
  · simp [h]; omega
  · simp [h]

theorem colAt_replicate_append (n : Nat) (c : Char) (rest : List Char) (h : c ≠ NEWLINE) :
    colAt (List.replicate n c ++ rest) n = n + 1 := by
  unfold colAt
  rw [List.take_left' (List.length_replicate n c), List.reverse_replicate,
    List.takeWhile_replicate]
  simp [h]; omega

theorem plain_char_literal_tokens (body : List Char) (fuel : Nat)
    (hq : ∀ c ∈ body, c ≠ SQUOTE ∧ c ≠ BACKSLASH) (hn : ∀ c ∈ body, c ≠ NUL)
    (hf : (quoted SQUOTE body).length < fuel) :
    tokenize (quoted SQUOTE body) fuel = some
      [{ kind := if wrapInt32 body.length ≤ 1 then token_kind.Char
                 else token_kind.MultiCharLiteral,
         start := 0, len := (quoted SQUOTE body).length, line := 1, col := 1 }] := by
  have hfl := flatten_singletons body
  have hu : ∀ u ∈ body.map (fun c => [c]), isUnit SQUOTE u = true := by
    intro u hu
    obtain ⟨c, hc, rfl⟩ := List.mem_map.1 hu
    simp [isUnit, (hq c hc).1, (hq c hc).2]
  have hne : (body.map (fun c => [c])).any isEscape = false := by
    rw [List.any_eq_false]
    intro u hu
    obtain ⟨c, -, rfl⟩ := List.mem_map.1 hu
    simp [isEscape]
  have h := char_literal_tokens (body.map (fun c => [c])) fuel hu
    (by rw [hfl]; exact hn) (by rw [hfl]; exact hf)
  rw [hfl] at h
  simp only [List.length_map, hne, Bool.false_eq_true, or_false] at h
  exact h

theorem long_plain_body (n fuel : Nat) (hf : n + 2 < fuel) :
    tokenize (quoted SQUOTE (List.replicate n 'a')) fuel = some
      [{ kind := if wrapInt32 n ≤ 1 then token_kind.Char else token_kind.MultiCharLiteral,
         start := 0, len := n + 2, line := 1, col := 1 }] := by
  have hlen : (quoted SQUOTE (List.replicate n 'a')).length = n + 2 := by
    simp [quoted]
  have h := plain_char_literal_tokens (List.replicate n 'a') fuel
    (fun c hc => by rw [List.eq_of_mem_replicate hc]; decide)
    (fun c hc => by rw [List.eq_of_mem_replicate hc]; decide)
    (by rw [hlen]; exact hf)
  rw [hlen, List.length_replicate] at h
  exact h

theorem blank_run_then_string (n fuel : Nat) (hn : 0 < n) (hf : n + 2 < fuel) :
    tokenize (List.replicate n ' ' ++ [DQUOTE, DQUOTE]) fuel = some
      [{ kind := token_kind.String, start := n, len := 2, line := 1,
         col := wrapInt32 (n + 1 : Nat) }] := by
  have hnul : ∀ c ∈ List.replicate n ' ' ++ [DQUOTE, DQUOTE], c ≠ NUL := by
    intro c hc
    rcases List.mem_append.1 hc with hc | hc
    · rw [List.eq_of_mem_replicate hc]; decide
    · simp only [List.mem_cons, List.mem_singleton, List.not_mem_nil, or_false] at hc
      rcases hc with rfl | rfl <;> decide
  have htw : (List.replicate n ' ' ++ [DQUOTE, DQUOTE]).takeWhile isblank
      = List.replicate n ' ' :=
    takeWhile_stop isblank _ _ (fun d hd => by rw [List.eq_of_mem_replicate hd]; decide)
      (fun b hb => by
        obtain rfl : DQUOTE = b := by simpa using hb
        decide)
  have h0 : (List.replicate n ' ' ++ [DQUOTE, DQUOTE]).drop State.init.cur.index
      = List.replicate n ' ' ++ [DQUOTE, DQUOTE] := rfl
  obtain ⟨m, rfl⟩ : ∃ m, n = m + 1 := ⟨n - 1, by omega⟩
  have hp0 : State.init.cur.peek (List.replicate (m + 1) ' ' ++ [DQUOTE, DQUOTE]) 0 = ' ' :=
    (@drop_cons_peek _ State.init.cur ' ' (List.replicate m ' ' ++ [DQUOTE, DQUOTE])
      (by rw [h0, List.replicate_succ]; rfl)).1
  -- the first iteration skips the blanks
  obtain ⟨k, hk, hki, -⟩ := whileNext_takeWhile isblank _ State.init.cur fuel h0 hnul
    (by rw [htw, List.length_replicate]; omega)
  rw [htw, List.length_replicate] at hki
  have hki' : k.index = m + 1 := by simpa [State.init, Cursor.init] using hki
  have hkd : (List.replicate (m + 1) ' ' ++ [DQUOTE, DQUOTE]).drop k.index
      = [DQUOTE, DQUOTE] := by
    rw [hki']; exact List.drop_left' (List.length_replicate _ _)
  have hwf := (whileNext_adv hk).2 (init_WF _)
  have hline : k.line = 1 := by
    rw [hwf.2.1, hki', lineAt_replicate_append, if_neg (by decide)]
    decide
  have hcol : k.col = wrapInt32 (m + 1 + 1 : Nat) := by
    rw [hwf.2.2, hki', colAt_replicate_append _ _ _ (by decide)]
  have hb1 : loopBody (List.replicate (m + 1) ' ' ++ [DQUOTE, DQUOTE]) fuel State.init
      = some { cur := k, tokens := [] } := by
    rw [loopBody_blank (by rw [hp0]; decide), hk]
    rfl
  -- the second iteration scans the empty string literal
  obtain ⟨hp1, he1⟩ := drop_cons_peek hkd
  obtain ⟨hi2, hr2⟩ := drop_cons_next hkd (by decide)
  obtain ⟨k', hk', hki2, hkr2⟩ := stringLoop_units [] [] (k.next _).2 fuel
    (by rw [hr2]; rfl) (fun u hu => by simp at hu) (fun c hc => by simp at hc)
    (by simp; omega)
  have hb2 : loopBody (List.replicate (m + 1) ' ' ++ [DQUOTE, DQUOTE]) fuel
      { cur := k, tokens := [] } = some (emit [] token_kind.String k.index k.line k.col k') := by
    rw [loopBody_string (by exact hp1), ]
    show Option.map _ (stringLoop _ fuel (k.next _).2) = _
    rw [hk']
    rfl
  have hne : State.init.cur.eof (List.replicate (m + 1) ' ' ++ [DQUOTE, DQUOTE]) = false := by
    simp [State.init, Cursor.init, Cursor.eof]
  have hrun : runN (List.replicate (m + 1) ' ' ++ [DQUOTE, DQUOTE]) fuel 2 State.init
      = some (emit [] token_kind.String k.index k.line k.col k') := by
    unfold runN
    rw [if_neg (by simp [hne]), hb1, Option.some_bind]
    unfold runN
    rw [if_neg (by show ¬ k.eof _ = true; simp [he1]), hb2, Option.some_bind]
    rfl
  rw [tokenize_of_runN hrun (drop_nil_eof hkr2) (by omega)]
  have hlen : k'.index - k.index = 2 := by
    rw [hki2, hi2]; simp only [List.flatten_nil, List.length_nil]; omega
  rw [hki'] at hlen
  simp only [emit, List.nil_append, hlen, hline, hcol, hki']

theorem skip_whole_run (c : Char) (hc : c ≠ NUL) (n : Nat) :
    (afterCalls (List.replicate n c) [CursorCall.skip n]).index = n ∧
    (afterCalls (List.replicate n c) [CursorCall.skip n]).line
      = wrapInt32 (lineAt (List.replicate n c) n) ∧
    (afterCalls (List.replicate n c) [CursorCall.skip n]).col
      = wrapInt32 (colAt (List.replicate n c) n) := by
  have hwf := foldl_run_WF (List.replicate n c) [CursorCall.skip n] Cursor.init (init_WF _)
  have hidx : (afterCalls (List.replicate n c) [CursorCall.skip n]).index = n := by
    show (Cursor.skipLoop (List.replicate n c) n NUL Cursor.init).2.index = n
    rw [(skipLoop_spec _ n NUL Cursor.init).1,
      nonNulRun_of_NUL_free _ _ (fun d hd => by rw [List.eq_of_mem_replicate hd]; exact hc)]
    simp [Cursor.init]
  have hl := hwf.2.1
  have hcl := hwf.2.2
  refine ⟨hidx, ?_, ?_⟩
  · show (afterCalls (List.replicate n c) [CursorCall.skip n]).line = _
    unfold afterCalls at hidx ⊢
    rw [hl, hidx]
  · show (afterCalls (List.replicate n c) [CursorCall.skip n]).col = _
    unfold afterCalls at hidx ⊢
    rw [hcl, hidx]

/-! ## Side results -/

theorem Tiles.count {code : List Char} {toks : List Token} {pos idx : Nat}
    (h : Tiles code toks pos idx) (hl : ∀ t ∈ toks, 0 < t.len) :
    pos + toks.length ≤ idx := by
  induction toks generalizing pos with
  | nil => simpa using h.1
  | cons t ts ih =>
    have := ih h.2.2 (fun u hu => hl u (List.mem_cons_of_mem _ hu))
    have := hl t (List.mem_cons_self _ _)
    have := h.1
    simp only [List.length_cons]
    omega

/-- Whenever the loop ends, it has emitted at most as many tokens as the buffer has
characters. -/
theorem tokenize_length_le {code : List Char} {fuel : Nat} {toks : List Token}
    (h : tokenize code fuel = some toks) : toks.length ≤ code.length := by
  obtain ⟨st, hr, -, rfl⟩ := tokenize_runN h
  have hi := runN_inv (Inv.init code) hr
  have := hi.2.1.count (fun t ht => (hi.2.2 t ht).1)
  have := hi.1.1
  omega

/-- A NUL character inside a char literal is never consumed: the literal's loop does not
end, whatever the bound. -/
theorem char_literal_with_NUL_never_ends (fuel : Nat) :
    tokenize [SQUOTE, NUL, SQUOTE] fuel = none := by
  have hloop : ∀ f i, charLoop [SQUOTE, NUL, SQUOTE] f
      { cur := { index := 1, line := 1, col := 2 }, i := i, escape := false } = none := by
    intro f
    induction f with
    | zero => intro i; rfl
    | succ f ih => intro i; exact ih (wrapInt32 (i + 1))
  cases fuel with
  | zero => rfl
  | succ f =>
    show Option.map State.tokens
      (Option.bind (Option.map _ (charLoop [SQUOTE, NUL, SQUOTE] (f + 1)
        { cur := { index := 1, line := 1, col := 2 }, i := 0, escape := false })) _) = none
    rw [hloop]
    rfl

/-- Taken one at a time, without the newlines, the six lines of the sample buffer give the
kinds `Comment`, `Comment`, `String`, `MultiCharLiteral`, `Char`, `Char`. -/
theorem sample_lines_kinds :
    tokenize "//Hello world".toList 14 = some [⟨token_kind.Comment, 0, 13, 1, 1⟩] ∧
    tokenize ['/', '*', ' ', 'c', 'o', 'm', 'm', 'e', 'n', 't', ' ', '*', '/'] 14
      = some [⟨token_kind.Comment, 0, 13, 1, 1⟩] ∧
    tokenize (quoted DQUOTE "string".toList) 9 = some [⟨token_kind.String, 0, 8, 1, 1⟩] ∧
    tokenize (quoted SQUOTE "chars".toList) 8
      = some [⟨token_kind.MultiCharLiteral, 0, 7, 1, 1⟩] ∧
    tokenize (quoted SQUOTE ['c']) 4 = some [⟨token_kind.Char, 0, 3, 1, 1⟩] ∧
    tokenize (quoted SQUOTE [BACKSLASH, '1', '3']) 6 = some [⟨token_kind.Char, 0, 5, 1, 1⟩] := by
  decide

/-- With `2^31` plain units in the body the counter `i` has wrapped and the token is a
`Char`, although no unit is an escape. -/
theorem long_plain_units_are_char :
    tokenize (quoted SQUOTE (List.replicate 2147483648 'a')) 2147483651
      = some [⟨token_kind.Char, 0, 2147483650, 1, 1⟩] ∧
    (List.replicate 2147483648 ['a']).flatten = List.replicate 2147483648 'a' ∧
    (∀ u ∈ List.replicate 2147483648 ['a'], isUnit SQUOTE u = true ∧ isEscape u = false) := by
  refine ⟨?_, List.flatten_replicate_singleton, fun u hu => ?_⟩
  · have h := long_plain_body 2147483648 2147483651 (by decide)
    rw [if_pos (by decide)] at h
    exact h
  · rw [List.eq_of_mem_replicate hu]
    decide

/-! ## The claims -/

/-- C1 (the code departs from it): on the sample buffer compiled into `main`, whose first
character is a newline, the loop `while (cur)` never ends, whatever bounds it is given, so
tokenization of a finite buffer does not always terminate. -/
theorem debug_buffer_never_finishes :
    (∀ inner fuel, mainLoop debugSrc inner fuel State.init = none) ∧
      ∀ fuel, tokenize debugSrc fuel = none := by
  have h := @mainLoop_stall debugSrc State.init (by decide) (by decide)
  exact ⟨h, fun fuel => by unfold tokenize; rw [h]; rfl⟩

/-- C2: at every iteration boundary of the tokenizer run the spans of the tokens emitted so
far, in emission order, with blank runs between them, tile the consumed prefix
`[0, index)`: each piece starts where the previous one ended, and their concatenation is
the consumed prefix; when the loop ends they reconstruct the whole buffer. -/
theorem tokens_and_blank_runs_tile (code : List Char) (fuel : Nat) :
    (∀ n st, runN code fuel n State.init = some st →
      st.cur.index ≤ code.length ∧ Tiles code st.tokens 0 st.cur.index ∧
        rebuild code st.tokens 0 st.cur.index = code.take st.cur.index) ∧
    (∀ toks, tokenize code fuel = some toks →
      Tiles code toks 0 code.length ∧ rebuild code toks 0 code.length = code) := by
  constructor
  · intro n st h
    have hi := runN_inv (Inv.init code) h
    exact ⟨hi.1.1, hi.2.1, hi.rebuild_take⟩
  · intro toks h
    obtain ⟨st, hr, he, rfl⟩ := tokenize_runN h
    have hi := runN_inv (Inv.init code) hr
    have hx := eof_index hi.1 he
    have h₁ := hi.2.1
    have h₂ := hi.rebuild_take
    rw [hx] at h₁ h₂
    exact ⟨h₁, by rw [h₂, List.take_length]⟩

/-- Witness of C2 on `'a'  42 `: after one iteration, and at the end of the run. -/
theorem tokens_and_blank_runs_tile_witness :
    (3 ≤ tileSample.length ∧
      Tiles tileSample [⟨token_kind.Char, 0, 3, 1, 1⟩] 0 3 ∧
      rebuild tileSample [⟨token_kind.Char, 0, 3, 1, 1⟩] 0 3 = tileSample.take 3) ∧
    (Tiles tileSample [⟨token_kind.Char, 0, 3, 1, 1⟩, ⟨token_kind.Number, 5, 2, 1, 6⟩] 0
        tileSample.length ∧
      rebuild tileSample [⟨token_kind.Char, 0, 3, 1, 1⟩, ⟨token_kind.Number, 5, 2, 1, 6⟩] 0
        tileSample.length = tileSample) :=
  ⟨(tokens_and_blank_runs_tile tileSample 10).1 1
      ⟨⟨3, 1, 4⟩, [⟨token_kind.Char, 0, 3, 1, 1⟩]⟩ (by decide),
    (tokens_and_blank_runs_tile tileSample 10).2
      [⟨token_kind.Char, 0, 3, 1, 1⟩, ⟨token_kind.Number, 5, 2, 1, 6⟩] (by decide)⟩

/-- C3: of any two tokens of the emitted sequence, at any iteration boundary and at the end
of the run, the one emitted first starts at a strictly smaller offset. -/
theorem token_starts_strictly_increase (code : List Char) (fuel : Nat) :
    (∀ n st, runN code fuel n State.init = some st →
      ∀ (i j : Nat) (t₁ t₂ : Token), i < j → st.tokens[i]? = some t₁ → st.tokens[j]? = some t₂ →
        t₁.start < t₂.start) ∧
    (∀ toks, tokenize code fuel = some toks →
      ∀ (i j : Nat) (t₁ t₂ : Token), i < j → toks[i]? = some t₁ → toks[j]? = some t₂ →
        t₁.start < t₂.start) := by
  constructor
  · intro n st h i j t₁ t₂ hij h₁ h₂
    exact (runN_inv (Inv.init code) h).starts_lt i j t₁ t₂ hij h₁ h₂
  · intro toks h i j t₁ t₂ hij h₁ h₂
    obtain ⟨st, hr, -, rfl⟩ := tokenize_runN h
    exact (runN_inv (Inv.init code) hr).starts_lt i j t₁ t₂ hij h₁ h₂

/-- Witness of C3 on two strings separated by a tab. -/
theorem token_starts_strictly_increase_witness :
    tokenize orderSample 10
        = some [⟨token_kind.String, 0, 3, 1, 1⟩, ⟨token_kind.String, 4, 3, 1, 5⟩] ∧
      (⟨token_kind.String, 0, 3, 1, 1⟩ : Token).start
        < (⟨token_kind.String, 4, 3, 1, 5⟩ : Token).start :=
  ⟨by decide,
    (token_starts_strictly_increase orderSample 10).2
      [⟨token_kind.String, 0, 3, 1, 1⟩, ⟨token_kind.String, 4, 3, 1, 5⟩] (by decide)
      0 1 _ _ (by decide) rfl rfl⟩

/-- C4 as stated fails: after `2^31 - 1` blanks on one line the `int` column has wrapped,
so the string literal that starts at offset `2147483647` is emitted with `col`
`-2147483648`, where 1 plus the number of characters before it on the line is
`2147483648`. -/
theorem token_col_wraps_on_long_line :
    tokenize (List.replicate 2147483647 ' ' ++ [DQUOTE, DQUOTE]) 2147483650
      = some [⟨token_kind.String, 2147483647, 2, 1, -2147483648⟩] ∧
    colAt (List.replicate 2147483647 ' ' ++ [DQUOTE, DQUOTE]) 2147483647 = 2147483648 := by
  refine ⟨?_, colAt_replicate_append 2147483647 ' ' _ (by decide)⟩
  have h := blank_run_then_string 2147483647 2147483650 (by decide) (by decide)
  have hw : wrapInt32 ((2147483647 + 1 : Nat) : Int) = -2147483648 := by decide
  rw [hw] at h
  exact h

/-- C4, amended: every emitted token carries the 1-based position of the first character
of its text as 32-bit `int` values: `line` is 1 plus the number of newlines before its
start offset and `col` is 1 plus the number of characters between the last such newline
(or the buffer start) and it, each reduced to the range of `int`; they are these numbers
themselves whenever the numbers do not exceed `2147483647`. -/
theorem token_line_col_of_start (code : List Char) (fuel : Nat) :
    (∀ n st, runN code fuel n State.init = some st →
      ∀ t ∈ st.tokens,
        t.line = wrapInt32 (lineAt code t.start) ∧ t.col = wrapInt32 (colAt code t.start) ∧
        (lineAt code t.start ≤ 2147483647 → t.line = lineAt code t.start) ∧
        (colAt code t.start ≤ 2147483647 → t.col = colAt code t.start)) ∧
    (∀ toks, tokenize code fuel = some toks →
      ∀ t ∈ toks,
        t.line = wrapInt32 (lineAt code t.start) ∧ t.col = wrapInt32 (colAt code t.start) ∧
        (lineAt code t.start ≤ 2147483647 → t.line = lineAt code t.start) ∧
        (colAt code t.start ≤ 2147483647 → t.col = colAt code t.start)) := by
  have key : ∀ st, Inv code st → ∀ t ∈ st.tokens,
      t.line = wrapInt32 (lineAt code t.start) ∧ t.col = wrapInt32 (colAt code t.start) ∧
      (lineAt code t.start ≤ 2147483647 → t.line = lineAt code t.start) ∧
      (colAt code t.start ≤ 2147483647 → t.col = colAt code t.start) := by
    intro st hi t ht
    obtain ⟨-, hl, hc⟩ := hi.2.2 t ht
    exact ⟨hl, hc, fun h => by rw [hl, wrapInt32_of_le _ h],
      fun h => by rw [hc, wrapInt32_of_le _ h]⟩
  constructor
  · intro n st h
    exact key st (runN_inv (Inv.init code) h)
  · intro toks h
    obtain ⟨st, hr, -, rfl⟩ := tokenize_runN h
    exact key st (runN_inv (Inv.init code) hr)

/-- Witness of the amended C4: the char literal after a two-line block comment is at
line 2, col 4. -/
theorem token_line_col_witness :
    tokenize positionSample 10
        = some [⟨token_kind.Comment, 0, 5, 1, 1⟩, ⟨token_kind.Char, 6, 3, 2, 4⟩] ∧
      lineAt positionSample 6 = 2 ∧ colAt positionSample 6 = 4 ∧
      (⟨token_kind.Char, 6, 3, 2, 4⟩ : Token).line = lineAt positionSample 6 ∧
      (⟨token_kind.Char, 6, 3, 2, 4⟩ : Token).col = colAt positionSample 6 :=
  ⟨by decide, by decide, by decide,
    ((token_line_col_of_start positionSample 10).2
      [⟨token_kind.Comment, 0, 5, 1, 1⟩, ⟨token_kind.Char, 6, 3, 2, 4⟩] (by decide)
      ⟨token_kind.Char, 6, 3, 2, 4⟩ (by decide)).2.2.1 (by decide),
    ((token_line_col_of_start positionSample 10).2
      [⟨token_kind.Comment, 0, 5, 1, 1⟩, ⟨token_kind.Char, 6, 3, 2, 4⟩] (by decide)
      ⟨token_kind.Char, 6, 3, 2, 4⟩ (by decide)).2.2.2 (by decide)⟩

/-- C5 (the code departs from it): on the six-line sample buffer the loop emits the first
`Comment`, reaches the newline at offset 13 and stays there for ever; the run never ends
and no second token is emitted. -/
theorem sample_buffer_stalls_after_first_comment :
    (∀ fuel, tokenize sampleBuffer fuel = none) ∧
      ∀ inner n, runN sampleBuffer (inner + 14) (n + 1) State.init
        = some ⟨⟨13, 1, 14⟩, [⟨token_kind.Comment, 0, 13, 1, 1⟩]⟩ := by
  have h14 : loopBody sampleBuffer 14 State.init
      = some ⟨⟨13, 1, 14⟩, [⟨token_kind.Comment, 0, 13, 1, 1⟩]⟩ := by decide
  have hnb : noBranch sampleBuffer
      (⟨⟨13, 1, 14⟩, [⟨token_kind.Comment, 0, 13, 1, 1⟩]⟩ : State).cur = true := by decide
  have he : State.init.cur.eof sampleBuffer = false := by decide
  constructor
  · intro fuel
    unfold tokenize
    cases fuel with
    | zero => rfl
    | succ f =>
      unfold mainLoop
      simp only [he, Bool.false_eq_true, if_false]
      cases hb : loopBody sampleBuffer (f + 1) State.init with
      | none => rfl
      | some st' =>
        obtain rfl := loopBody_det hb h14
        simp only [Option.some_bind]
        rw [mainLoop_stall (by decide) hnb]
        rfl
  · intro inner n
    have hb := loopBody_mono h14 inner
    rw [Nat.add_comm] at hb
    unfold runN
    simp only [he, Bool.false_eq_true, if_false, hb, Option.some_bind]
    exact runN_stall hnb _ _

/-- C6: a NUL-free buffer made of a double quote, a body of units (one character other than
the double quote and the backslash, or a backslash and the character after it) and a
double quote is tokenized, with any bound above its length, into exactly one token: a
`String` whose text is the whole buffer, at line 1, col 1. -/
theorem string_literal_is_one_token (units : List (List Char)) (fuel : Nat)
    (hu : ∀ u ∈ units, isUnit DQUOTE u = true)
    (hn : ∀ c ∈ quoted DQUOTE units.flatten, c ≠ NUL)
    (hf : (quoted DQUOTE units.flatten).length < fuel) :
    ∃ t, tokenize (quoted DQUOTE units.flatten) fuel = some [t] ∧
      t.kind = token_kind.String ∧
      t.text (quoted DQUOTE units.flatten) = quoted DQUOTE units.flatten ∧
      t.line = 1 ∧ t.col = 1 :=
  ⟨_, string_literal_tokens units fuel hu
      (fun c hc => hn c (by simp only [quoted, List.mem_cons, List.mem_append]; tauto)) hf,
    rfl, text_whole _ _ _ _, rfl, rfl⟩

/-- Witness of C6: the buffer `"a\"b"`. -/
theorem string_literal_is_one_token_witness :
    (∃ t, tokenize (quoted DQUOTE escapedQuoteUnits.flatten) 7 = some [t] ∧
      t.kind = token_kind.String ∧
      t.text (quoted DQUOTE escapedQuoteUnits.flatten) = quoted DQUOTE escapedQuoteUnits.flatten ∧
      t.line = 1 ∧ t.col = 1) ∧
    quoted DQUOTE escapedQuoteUnits.flatten = [DQUOTE, 'a', BACKSLASH, DQUOTE, 'b', DQUOTE] ∧
    tokenize [DQUOTE, 'a', BACKSLASH, DQUOTE, 'b', DQUOTE] 7
      = some [⟨token_kind.String, 0, 6, 1, 1⟩] :=
  ⟨string_literal_is_one_token escapedQuoteUnits 7 (by decide) (by decide) (by decide),
    by decide, by decide⟩

/-- C7 as stated fails: with `2^31` plain characters in the body the `int` counter `i` has
wrapped to `-2147483648`, the test `i <= 1` holds and the token is a `Char`. -/
theorem long_plain_char_literal_is_char :
    2 ≤ (List.replicate 2147483648 'a').length ∧
    tokenize (quoted SQUOTE (List.replicate 2147483648 'a')) 2147483651
      = some [⟨token_kind.Char, 0, 2147483650, 1, 1⟩] := by
  refine ⟨by rw [List.length_replicate]; decide, ?_⟩
  have h := long_plain_body 2147483648 2147483651 (by decide)
  rw [if_pos (by decide)] at h
  exact h

/-- C7, amended: a NUL-free buffer made of a single quote, a body of fewer than `2^31`
characters without single quote and backslash, and a single quote is tokenized into exactly
one token whose text is the whole buffer; it is a `Char` when the body has at most one
character and a `MultiCharLiteral` when it has two or more. -/
theorem plain_char_literal_is_one_token (body : List Char) (fuel : Nat)
    (hq : ∀ c ∈ body, c ≠ SQUOTE ∧ c ≠ BACKSLASH)
    (hn : ∀ c ∈ quoted SQUOTE body, c ≠ NUL)
    (hs : body.length < 2147483648)
    (hf : (quoted SQUOTE body).length < fuel) :
    ∃ t, tokenize (quoted SQUOTE body) fuel = some [t] ∧
      t.text (quoted SQUOTE body) = quoted SQUOTE body ∧
      (body.length ≤ 1 → t.kind = token_kind.Char) ∧
      (2 ≤ body.length → t.kind = token_kind.MultiCharLiteral) := by
  have h := plain_char_literal_tokens body fuel hq
    (fun c hc => hn c (by simp only [quoted, List.mem_cons, List.mem_append]; tauto)) hf
  rw [wrapInt32_of_le _ (by omega)] at h
  refine ⟨_, h, text_whole _ _ _ _, fun h₁ => ?_, fun h₂ => ?_⟩
  · have : (body.length : Int) ≤ 1 := by exact_mod_cast h₁
    simp [this]
  · have : ¬ (body.length : Int) ≤ 1 := by
      intro h; have : body.length ≤ 1 := by exact_mod_cast h
      omega
    simp [this]

/-- Witness of the amended C7: `'c'` is a `Char`, `'ab'` is a `MultiCharLiteral`. -/
theorem plain_char_literal_witness :
    tokenize [SQUOTE, 'c', SQUOTE] 4 = some [⟨token_kind.Char, 0, 3, 1, 1⟩] ∧
    tokenize [SQUOTE, 'a', 'b', SQUOTE] 5 = some [⟨token_kind.MultiCharLiteral, 0, 4, 1, 1⟩] ∧
    (∃ t, tokenize (quoted SQUOTE ['a', 'b']) 5 = some [t] ∧
      t.text (quoted SQUOTE ['a', 'b']) = quoted SQUOTE ['a', 'b'] ∧
      ((['a', 'b'] : List Char).length ≤ 1 → t.kind = token_kind.Char) ∧
      (2 ≤ (['a', 'b'] : List Char).length → t.kind = token_kind.MultiCharLiteral)) :=
  ⟨by decide, by decide,
    plain_char_literal_is_one_token ['a', 'b'] 5 (by decide) (by decide) (by decide)
      (by decide)⟩

/-- C8: a buffer made of a single quote, a backslash, one to three octal digits and a
single quote is tokenized into exactly one token, a `Char` whose text is the whole
buffer. -/
theorem octal_escape_char_literal (ds : List Char) (fuel : Nat)
    (h₁ : 1 ≤ ds.length) (_h₃ : ds.length ≤ 3) (ho : ∀ d ∈ ds, isodigit d = true)
    (hf : (quoted SQUOTE (BACKSLASH :: ds)).length < fuel) :
    ∃ t, tokenize (quoted SQUOTE (BACKSLASH :: ds)) fuel = some [t] ∧
      t.kind = token_kind.Char ∧
      t.text (quoted SQUOTE (BACKSLASH :: ds)) = quoted SQUOTE (BACKSLASH :: ds) := by
  rcases ds with _ | ⟨d, ds⟩
  · simp at h₁
  · have hfl : ([BACKSLASH, d] :: ds.map (fun c => [c])).flatten = BACKSLASH :: d :: ds := by
      simp [flatten_singletons]
    have hu : ∀ u ∈ [BACKSLASH, d] :: ds.map (fun c => [c]), isUnit SQUOTE u = true := by
      intro u hu
      rcases List.mem_cons.1 hu with rfl | hu
      · simp [isUnit]
      · obtain ⟨c, hc, rfl⟩ := List.mem_map.1 hu
        have := isodigit_facts (ho c (List.mem_cons_of_mem _ hc))
        simp [isUnit, this.2.1, this.2.2]
    have h := char_literal_tokens ([BACKSLASH, d] :: ds.map (fun c => [c])) fuel hu
      (by
        rw [hfl]
        intro c hc
        rcases List.mem_cons.1 hc with rfl | hc
        · decide
        · exact (isodigit_facts (ho c hc)).1)
      (by rw [hfl]; exact hf)
    rw [hfl] at h
    simp only [List.any_cons, isEscape, List.length_cons, List.length_nil, beq_self_eq_true,
      Bool.true_or, or_true, if_true] at h
    exact ⟨_, h, rfl, text_whole _ _ _ _⟩

/-- Witness of C8: the buffer `'\13'`. -/
theorem octal_escape_char_literal_witness :
    (∃ t, tokenize (quoted SQUOTE [BACKSLASH, '1', '3']) 6 = some [t] ∧
      t.kind = token_kind.Char ∧
      t.text (quoted SQUOTE [BACKSLASH, '1', '3']) = quoted SQUOTE [BACKSLASH, '1', '3']) ∧
    tokenize [SQUOTE, BACKSLASH, '1', '3', SQUOTE] 6 = some [⟨token_kind.Char, 0, 5, 1, 1⟩] :=
  ⟨octal_escape_char_literal ['1', '3'] 6 (by decide) (by decide) (by decide) (by decide),
    by decide⟩

/-- C9 as stated fails: the body of `'\13'` has two logical units by the scanner's rule
(the escape `\1` and the character `3`), yet the token is a `Char`. -/
theorem char_kind_by_unit_count_fails :
    ¬ (∀ (units : List (List Char)) (fuel : Nat) (t : Token),
        (∀ u ∈ units, isUnit SQUOTE u = true) →
        tokenize (quoted SQUOTE units.flatten) fuel = some [t] →
        (units.length ≤ 1 → t.kind = token_kind.Char) ∧
          (2 ≤ units.length → t.kind = token_kind.MultiCharLiteral)) := by
  intro h
  have := (h octalEscapeUnits 6 ⟨token_kind.Char, 0, 5, 1, 1⟩ (by decide) (by decide)).2
    (by decide)
  exact absurd this (by decide)

/-- C9, amended: a NUL-free closed char literal whose body splits into the given logical
units is tokenized into exactly one token whose text is the whole buffer; it is a `Char`
when the body has at most one unit or holds a backslash escape, and a `MultiCharLiteral`
when it has two or more units, fewer than `2^31` of them (the range of the `int` counter),
and none is a backslash escape. -/
theorem char_kind_by_units_and_escape (units : List (List Char)) (fuel : Nat)
    (hu : ∀ u ∈ units, isUnit SQUOTE u = true)
    (hn : ∀ c ∈ quoted SQUOTE units.flatten, c ≠ NUL)
    (hf : (quoted SQUOTE units.flatten).length < fuel) :
    ∃ t, tokenize (quoted SQUOTE units.flatten) fuel = some [t] ∧
      t.text (quoted SQUOTE units.flatten) = quoted SQUOTE units.flatten ∧
      (units.length ≤ 1 ∨ (∃ u ∈ units, isEscape u = true) → t.kind = token_kind.Char) ∧
      (2 ≤ units.length ∧ units.length < 2147483648 ∧ (∀ u ∈ units, isEscape u = false) →
        t.kind = token_kind.MultiCharLiteral) := by
  have h := char_literal_tokens units fuel hu
    (fun c hc => hn c (by simp only [quoted, List.mem_cons, List.mem_append]; tauto)) hf
  refine ⟨_, h, text_whole _ _ _ _, fun h₁ => ?_, fun h₂ => ?_⟩
  · have : wrapInt32 units.length ≤ 1 ∨ units.any isEscape = true := by
      rcases h₁ with h₁ | ⟨u, hu₁, hu₂⟩
      · left
        rw [wrapInt32_of_le _ (by omega)]
        exact_mod_cast h₁
      · exact Or.inr (List.any_eq_true.2 ⟨u, hu₁, hu₂⟩)
    simp only [this, if_true]
  · have : ¬ (wrapInt32 units.length ≤ 1 ∨ units.any isEscape = true) := by
      rintro (h₃ | h₃)
      · rw [wrapInt32_of_le _ (by omega)] at h₃
        have : units.length ≤ 1 := by exact_mod_cast h₃
        omega
      · obtain ⟨u, hu₁, hu₂⟩ := List.any_eq_true.1 h₃
        rw [h₂.2.2 u hu₁] at hu₂
        exact absurd hu₂ (by decide)
    simp only [this, if_false]

/-- Witness of the amended C9: `'\13'` has two units, one of them an escape, and is a
`Char`; `'ab'` has two plain units and is a `MultiCharLiteral`. -/
theorem char_kind_by_units_and_escape_witness :
    (∃ t, tokenize (quoted SQUOTE octalEscapeUnits.flatten) 6 = some [t] ∧
      t.text (quoted SQUOTE octalEscapeUnits.flatten) = quoted SQUOTE octalEscapeUnits.flatten ∧
      (octalEscapeUnits.length ≤ 1 ∨ (∃ u ∈ octalEscapeUnits, isEscape u = true) →
        t.kind = token_kind.Char) ∧
      (2 ≤ octalEscapeUnits.length ∧ octalEscapeUnits.length < 2147483648 ∧
        (∀ u ∈ octalEscapeUnits, isEscape u = false) →
        t.kind = token_kind.MultiCharLiteral)) ∧
    octalEscapeUnits.length = 2 ∧ (∃ u ∈ octalEscapeUnits, isEscape u = true) ∧
    tokenize (quoted SQUOTE octalEscapeUnits.flatten) 6
      = some [⟨token_kind.Char, 0, 5, 1, 1⟩] ∧
    (∃ t, tokenize (quoted SQUOTE [['a'], ['b']].flatten) 5 = some [t] ∧
      t.text (quoted SQUOTE [['a'], ['b']].flatten) = quoted SQUOTE [['a'], ['b']].flatten ∧
      ([['a'], ['b']].length ≤ 1 ∨ (∃ u ∈ [['a'], ['b']], isEscape u = true) →
        t.kind = token_kind.Char) ∧
      (2 ≤ [['a'], ['b']].length ∧ [['a'], ['b']].length < 2147483648 ∧
        (∀ u ∈ [['a'], ['b']], isEscape u = false) →
        t.kind = token_kind.MultiCharLiteral)) ∧
    tokenize (quoted SQUOTE [['a'], ['b']].flatten) 5
      = some [⟨token_kind.MultiCharLiteral, 0, 4, 1, 1⟩] :=
  ⟨char_kind_by_units_and_escape octalEscapeUnits 6 (by decide) (by decide) (by decide),
    by decide, by decide, by decide,
    char_kind_by_units_and_escape [['a'], ['b']] 5 (by decide) (by decide) (by decide),
    by decide⟩

/-- C10: on a NUL-free buffer that starts with a decimal digit and whose digit run is
directly followed by a character that is neither space nor tab, the first iteration emits
one token, of kind `Unknown`, whose text is the maximal run of non-blank characters from
the first digit on; the cursor stops at the end of that run and no `Number` is emitted. -/
theorem glued_digits_are_unknown (code : List Char) (fuel : Nat) (c₀ c : Char)
    (hn : ∀ d ∈ code, d ≠ NUL) (h₀ : code.head? = some c₀) (hdig : isdigit c₀ = true)
    (hnext : code[digitRunLength code]? = some c) (hc : isblank c = false)
    (hf : code.length < fuel) :
    ∃ st t, loopBody code fuel State.init = some st ∧ st.tokens = [t] ∧
      t.kind = token_kind.Unknown ∧ t.start = 0 ∧ t.text code = nonBlankRun code ∧
      st.cur.index = (nonBlankRun code).length := by
  obtain ⟨k, hk, hki⟩ := glued_digits code fuel c₀ c hn h₀ hdig hnext hc hf
  refine ⟨_, _, hk, rfl, rfl, rfl, ?_, hki⟩
  simp only [Token.text, List.drop_zero, Nat.sub_zero, hki]
  exact take_takeWhile_length _ code

/-- Witness of C10: `123abc ` and `0x1G ` each yield exactly one token, of kind `Unknown`,
over `123abc` and `0x1G`. -/
theorem glued_digits_are_unknown_witness :
    (∃ st t, loopBody gluedDecimal 8 State.init = some st ∧ st.tokens = [t] ∧
      t.kind = token_kind.Unknown ∧ t.start = 0 ∧ t.text gluedDecimal = nonBlankRun gluedDecimal ∧
      st.cur.index = (nonBlankRun gluedDecimal).length) ∧
    (∃ st t, loopBody gluedHex 6 State.init = some st ∧ st.tokens = [t] ∧
      t.kind = token_kind.Unknown ∧ t.start = 0 ∧ t.text gluedHex = nonBlankRun gluedHex ∧
      st.cur.index = (nonBlankRun gluedHex).length) ∧
    nonBlankRun gluedDecimal = "123abc".toList ∧ nonBlankRun gluedHex = "0x1G".toList ∧
    tokenize gluedDecimal 8 = some [⟨token_kind.Unknown, 0, 6, 1, 1⟩] ∧
    tokenize gluedHex 6 = some [⟨token_kind.Unknown, 0, 4, 1, 1⟩] :=
  ⟨glued_digits_are_unknown gluedDecimal 8 '1' 'a' (by decide) (by decide) (by decide)
      (by decide) (by decide) (by decide),
    glued_digits_are_unknown gluedHex 6 '0' 'G' (by decide) (by decide) (by decide)
      (by decide) (by decide) (by decide),
    by decide, by decide, by decide, by decide⟩

/-- C11: a well-formed integer lexeme followed by a single space or tab is tokenized, with
any bound above the buffer length, into exactly one token, a `Number` whose text is the
lexeme. -/
theorem integer_lexeme_is_number (lex : List Char) (b : Char) (fuel : Nat)
    (hl : isIntLexeme lex = true) (hb : b = ' ' ∨ b = Char.ofNat 9)
    (hf : (lex ++ [b]).length < fuel) :
    ∃ t, tokenize (lex ++ [b]) fuel = some [t] ∧ t.kind = token_kind.Number ∧
      t.text (lex ++ [b]) = lex := by
  have hbb : isblank b = true := by
    rcases hb with rfl | rfl <;> decide
  refine ⟨_, number_tokens hl b hbb fuel hf, rfl, ?_⟩
  simp [Token.text]

/-- Witness of C11: `0x1F ` and `017 `. -/
theorem integer_lexeme_is_number_witness :
    (∃ t, tokenize ("0x1F".toList ++ [' ']) 6 = some [t] ∧ t.kind = token_kind.Number ∧
      t.text ("0x1F".toList ++ [' ']) = "0x1F".toList) ∧
    (∃ t, tokenize ("017".toList ++ [' ']) 5 = some [t] ∧ t.kind = token_kind.Number ∧
      t.text ("017".toList ++ [' ']) = "017".toList) ∧
    tokenize hexSample 6 = some [⟨token_kind.Number, 0, 4, 1, 1⟩] ∧
    tokenize octalSample 5 = some [⟨token_kind.Number, 0, 3, 1, 1⟩] :=
  ⟨integer_lexeme_is_number "0x1F".toList ' ' 6 (by decide) (by decide) (by decide),
    integer_lexeme_is_number "017".toList ' ' 5 (by decide) (by decide) (by decide),
    by decide, by decide⟩

/-- C12 as stated fails: the buffer `123`, with nothing after the digits, is tokenized into
one `Unknown` token, not a `Number`. -/
theorem digits_at_end_are_not_number :
    ¬ (∀ (lex : List Char) (fuel : Nat) (t : Token), isIntLexeme lex = true →
        tokenize lex fuel = some [t] → t.kind = token_kind.Number ∧ t.text lex = lex) := by
  intro h
  have := (h "123".toList 4 ⟨token_kind.Unknown, 0, 3, 1, 1⟩ (by decide) (by decide)).1
  exact absurd this (by decide)

/-- C12, amended: on a NUL-free buffer, a well-formed integer digit run directly followed
by the end of the buffer or by a newline is emitted as one `Unknown` token whose text is
the maximal run of non-blank characters from the first digit on; at the end of the buffer
that is the digit run itself and the whole tokenization yields just this token. -/
theorem digits_before_end_or_newline (lex rest : List Char) (fuel : Nat)
    (hl : isIntLexeme lex = true) (hr : rest = [] ∨ rest.head? = some NEWLINE)
    (hn : ∀ c ∈ lex ++ rest, c ≠ NUL) (hf : (lex ++ rest).length < fuel) :
    (∃ st t, loopBody (lex ++ rest) fuel State.init = some st ∧ st.tokens = [t] ∧
      t.kind = token_kind.Unknown ∧ t.start = 0 ∧
      t.text (lex ++ rest) = nonBlankRun (lex ++ rest) ∧
      st.cur.index = (nonBlankRun (lex ++ rest)).length) ∧
    (rest = [] → nonBlankRun (lex ++ rest) = lex ∧
      tokenize lex fuel = some [⟨token_kind.Unknown, 0, lex.length, 1, 1⟩]) := by
  have hnb : ∀ d ∈ lex, isblank d = false :=
    (number_phase hl [] (lex.length + 1) (fun b hb => by simp at hb)
      (fun c hc => by simp at hc) (by simp)).choose_spec.2.2.2
  constructor
  · rcases hr with rfl | hr
    · have hf' : lex.length < fuel := by simpa using hf
      obtain ⟨k, hk, hki, hkd, -⟩ := number_phase hl [] fuel (fun b hb => by simp at hb)
        (fun c hc => by simp at hc) hf
      rw [numberTail_eof (drop_nil_eof hkd) (by omega)] at hk
      simp only [List.append_nil] at hk hki ⊢
      refine ⟨_, _, hk, rfl, rfl, rfl, ?_, ?_⟩
      · simp [Token.text, emit, hki, nonBlankRun_self hnb]
      · simp [emit, hki, nonBlankRun_self hnb]
    · rcases rest with _ | ⟨c, r⟩
      · simp at hr
      · obtain rfl : c = NEWLINE := by simpa using hr
        obtain ⟨k, hk, hki⟩ := number_before_newline hl r fuel hn hf
        refine ⟨_, _, hk, rfl, rfl, rfl, ?_, hki⟩
        simp only [Token.text, emit, List.drop_zero, Nat.sub_zero, hki]
        exact take_takeWhile_length _ _
  · rintro rfl
    exact ⟨by rw [List.append_nil]; exact nonBlankRun_self hnb,
      number_at_end hl fuel (by simpa using hf)⟩

/-- Witness of the amended C12: `123` alone, and `12` followed by a newline and `x`. -/
theorem digits_before_end_or_newline_witness :
    ((∃ st t, loopBody ("123".toList ++ []) 4 State.init = some st ∧ st.tokens = [t] ∧
      t.kind = token_kind.Unknown ∧ t.start = 0 ∧
      t.text ("123".toList ++ []) = nonBlankRun ("123".toList ++ []) ∧
      st.cur.index = (nonBlankRun ("123".toList ++ [])).length) ∧
    (([] : List Char) = [] → nonBlankRun ("123".toList ++ []) = "123".toList ∧
      tokenize "123".toList 4 = some [⟨token_kind.Unknown, 0, 3, 1, 1⟩])) ∧
    tokenize ("12".toList ++ [NEWLINE, 'x']) 5 = some [⟨token_kind.Unknown, 0, 4, 1, 1⟩] ∧
    (∃ st t, loopBody ("12".toList ++ [NEWLINE, 'x']) 5 State.init = some st ∧
      st.tokens = [t] ∧ t.kind = token_kind.Unknown ∧ t.start = 0 ∧
      t.text ("12".toList ++ [NEWLINE, 'x']) = nonBlankRun ("12".toList ++ [NEWLINE, 'x']) ∧
      st.cur.index = (nonBlankRun ("12".toList ++ [NEWLINE, 'x'])).length) :=
  ⟨digits_before_end_or_newline "123".toList [] 4 (by decide) (Or.inl rfl) (by decide)
      (by decide),
    by decide,
    (digits_before_end_or_newline "12".toList [NEWLINE, 'x'] 5 (by decide) (Or.inr rfl)
      (by decide) (by decide)).1⟩

/-- C13: on a NUL-free buffer that begins with `//`, the first iteration emits a `Comment`
at line 1, col 1 whose text runs from the first `/` up to, not including, the first
newline, or to the end of the buffer when there is no newline. -/
theorem line_comment_extent (rest : List Char) (fuel : Nat)
    (hn : ∀ c ∈ '/' :: '/' :: rest, c ≠ NUL) (hf : ('/' :: '/' :: rest).length < fuel) :
    ∃ st t, loopBody ('/' :: '/' :: rest) fuel State.init = some st ∧ st.tokens = [t] ∧
      t.kind = token_kind.Comment ∧ t.line = 1 ∧ t.col = 1 ∧ t.start = 0 ∧
      t.text ('/' :: '/' :: rest) = ('/' :: '/' :: rest).takeWhile (fun d => d != NEWLINE) := by
  obtain ⟨k, hk, hki⟩ := line_comment_first rest fuel hn hf
  refine ⟨_, _, hk, rfl, rfl, rfl, rfl, rfl, ?_⟩
  simp only [Token.text, emit, List.drop_zero, Nat.sub_zero, hki]
  exact take_takeWhile_length _ _

/-- Witness of C13: for `// line`, newline, `next` the text is `// line`. -/
theorem line_comment_extent_witness :
    (∃ st t, loopBody ('/' :: '/' :: [' ', 'l', 'i', 'n', 'e', NEWLINE, 'n', 'e', 'x', 't']) 13
        State.init = some st ∧ st.tokens = [t] ∧
      t.kind = token_kind.Comment ∧ t.line = 1 ∧ t.col = 1 ∧ t.start = 0 ∧
      t.text ('/' :: '/' :: [' ', 'l', 'i', 'n', 'e', NEWLINE, 'n', 'e', 'x', 't'])
        = ('/' :: '/' :: [' ', 'l', 'i', 'n', 'e', NEWLINE, 'n', 'e', 'x', 't']).takeWhile
            (fun d => d != NEWLINE)) ∧
    lineCommentSample.takeWhile (fun d => d != NEWLINE) = ['/', '/', ' ', 'l', 'i', 'n', 'e'] ∧
    loopBody lineCommentSample 13 State.init
      = some ⟨⟨7, 1, 8⟩, [⟨token_kind.Comment, 0, 7, 1, 1⟩]⟩ :=
  ⟨line_comment_extent [' ', 'l', 'i', 'n', 'e', NEWLINE, 'n', 'e', 'x', 't'] 13 (by decide)
      (by decide),
    by decide, by decide⟩

/-- C14: on a NUL-free buffer that begins with `/*`, the first iteration emits a `Comment`
that starts at offset 0 and runs through the end of the first `*/` that starts at offset 2
or later, or through the end of the buffer when there is no such `*/`. -/
theorem block_comment_extent (rest : List Char) (fuel : Nat)
    (hn : ∀ c ∈ '/' :: '*' :: rest, c ≠ NUL) (hf : ('/' :: '*' :: rest).length < fuel) :
    ∃ st t, loopBody ('/' :: '*' :: rest) fuel State.init = some st ∧ st.tokens = [t] ∧
      t.kind = token_kind.Comment ∧ t.start = 0 ∧ st.cur.index = t.len ∧
      (∀ n, isCloserAt ('/' :: '*' :: rest) (2 + n) →
        (∀ m, m < n → ¬ isCloserAt ('/' :: '*' :: rest) (2 + m)) →
        t.len = 2 + n + 2 ∧ t.text ('/' :: '*' :: rest) = ('/' :: '*' :: rest).take (2 + n + 2)) ∧
      ((∀ m, ¬ isCloserAt ('/' :: '*' :: rest) (2 + m)) →
        t.len = ('/' :: '*' :: rest).length ∧ t.text ('/' :: '*' :: rest) = '/' :: '*' :: rest) := by
  obtain ⟨k, hk, hki⟩ := block_comment_first rest fuel hn hf
  have hcl : ∀ m, isCloserAt ('/' :: '*' :: rest) (2 + m) ↔ isCloserAt rest m := fun m =>
    (isCloserAt_drop ('/' :: '*' :: rest) 2 m).symm
  refine ⟨_, _, hk, rfl, rfl, rfl, by simp [emit], fun n h₁ h₂ => ?_, fun h => ?_⟩
  · have hoff := closerOffset_eq_of_first ((hcl n).1 h₁)
      (fun m hm hc => h₂ m hm ((hcl m).2 hc))
    rw [hoff] at hki
    have hlen : k.index = 2 + n + 2 := by
      rw [hki]; show n + 4 = 2 + n + 2; omega
    simp [Token.text, emit, hlen]
  · have hoff : closerOffset rest = none := by
      cases ho : closerOffset rest with
      | none => rfl
      | some n => exact absurd ((hcl n).2 (closerOffset_some ho).1) (h n)
    rw [hoff] at hki
    have hlen : k.index = ('/' :: '*' :: rest).length := by rw [hki]; rfl
    simp [Token.text, emit, hlen]

/-- Witness of C14: in `/*/ a */ ` the `*/` at offset 1 is not a closer; the comment ends
with the `*/` at offset 6. In `/*/ a` nothing closes the comment. -/
theorem block_comment_extent_witness :
    ((⟨token_kind.Comment, 0, 8, 1, 1⟩ : Token).len = 2 + 4 + 2 ∧
      (⟨token_kind.Comment, 0, 8, 1, 1⟩ : Token).text blockCommentSample
        = blockCommentSample.take (2 + 4 + 2)) ∧
    ((⟨token_kind.Comment, 0, 5, 1, 1⟩ : Token).len = openCommentSample.length ∧
      (⟨token_kind.Comment, 0, 5, 1, 1⟩ : Token).text openCommentSample = openCommentSample) ∧
    loopBody blockCommentSample 10 State.init
      = some ⟨⟨8, 1, 9⟩, [⟨token_kind.Comment, 0, 8, 1, 1⟩]⟩ ∧
    loopBody openCommentSample 6 State.init
      = some ⟨⟨5, 1, 6⟩, [⟨token_kind.Comment, 0, 5, 1, 1⟩]⟩ := by
  obtain ⟨st, t, h₁, h₂, -, -, -, h₃, -⟩ :=
    block_comment_extent ['/', ' ', 'a', ' ', '*', '/', ' '] 10 (by decide) (by decide)
  obtain ⟨st', t', h₁', h₂', -, -, -, -, h₄'⟩ :=
    block_comment_extent ['/', ' ', 'a'] 6 (by decide) (by decide)
  have e₁ : loopBody blockCommentSample 10 State.init
      = some ⟨⟨8, 1, 9⟩, [⟨token_kind.Comment, 0, 8, 1, 1⟩]⟩ := by decide
  have e₂ : loopBody openCommentSample 6 State.init
      = some ⟨⟨5, 1, 6⟩, [⟨token_kind.Comment, 0, 5, 1, 1⟩]⟩ := by decide
  have hs : st = ⟨⟨8, 1, 9⟩, [⟨token_kind.Comment, 0, 8, 1, 1⟩]⟩ :=
    Option.some.inj (h₁.symm.trans e₁)
  have hs' : st' = ⟨⟨5, 1, 6⟩, [⟨token_kind.Comment, 0, 5, 1, 1⟩]⟩ :=
    Option.some.inj (h₁'.symm.trans e₂)
  subst hs hs'
  obtain rfl : t = ⟨token_kind.Comment, 0, 8, 1, 1⟩ := by simpa using h₂.symm
  obtain rfl : t' = ⟨token_kind.Comment, 0, 5, 1, 1⟩ := by simpa using h₂'.symm
  refine ⟨h₃ 4 (by unfold isCloserAt; decide) ?_, h₄' ?_, e₁, e₂⟩
  · intro m hm
    interval_cases m <;> (unfold isCloserAt; decide)
  · intro m
    by_cases hm : m < 3
    · interval_cases m <;> (unfold isCloserAt; decide)
    · rintro ⟨h, -⟩
      rw [List.getElem?_eq_none (by simp; omega)] at h
      cases h

/-- C15: a NUL-free buffer that begins with a double quote (a single quote) and has no
unescaped closing quote after it, also when it ends in a lone backslash, is tokenized
without error into exactly one token, a `String` (a `Char` or a `MultiCharLiteral`) whose
text is the whole buffer. -/
theorem unterminated_literal_is_one_token (units : List (List Char)) (tail : List Char)
    (fuel : Nat) (ht : tail = [] ∨ tail = [BACKSLASH]) :
    ((∀ u ∈ units, isUnit DQUOTE u = true) →
      (∀ c ∈ DQUOTE :: (units.flatten ++ tail), c ≠ NUL) →
      (DQUOTE :: (units.flatten ++ tail)).length < fuel →
      ∃ t, tokenize (DQUOTE :: (units.flatten ++ tail)) fuel = some [t] ∧
        t.kind = token_kind.String ∧
        t.text (DQUOTE :: (units.flatten ++ tail)) = DQUOTE :: (units.flatten ++ tail)) ∧
    ((∀ u ∈ units, isUnit SQUOTE u = true) →
      (∀ c ∈ SQUOTE :: (units.flatten ++ tail), c ≠ NUL) →
      (SQUOTE :: (units.flatten ++ tail)).length < fuel →
      ∃ t, tokenize (SQUOTE :: (units.flatten ++ tail)) fuel = some [t] ∧
        (t.kind = token_kind.Char ∨ t.kind = token_kind.MultiCharLiteral) ∧
        t.text (SQUOTE :: (units.flatten ++ tail)) = SQUOTE :: (units.flatten ++ tail)) := by
  constructor
  · intro hu hn hf
    exact ⟨_, open_string_tokens units tail fuel ht hu
      (fun c hc => hn c (by simp only [List.mem_cons, List.mem_append]; tauto)) hf,
      rfl, text_whole _ _ _ _⟩
  · intro hu hn hf
    obtain ⟨kind, hk, h⟩ := open_char_tokens units tail fuel ht hu
      (fun c hc => hn c (by simp only [List.mem_cons, List.mem_append]; tauto)) hf
    exact ⟨_, h, hk, text_whole _ _ _ _⟩

/-- Witness of C15: a string left open after `ab\`, and a char literal left open after
`ab`. -/
theorem unterminated_literal_witness :
    (∃ t, tokenize (DQUOTE :: ([['a'], ['b']].flatten ++ [BACKSLASH])) 5 = some [t] ∧
      t.kind = token_kind.String ∧
      t.text (DQUOTE :: ([['a'], ['b']].flatten ++ [BACKSLASH]))
        = DQUOTE :: ([['a'], ['b']].flatten ++ [BACKSLASH])) ∧
    (∃ t, tokenize (SQUOTE :: ([['a'], ['b']].flatten ++ [])) 4 = some [t] ∧
      (t.kind = token_kind.Char ∨ t.kind = token_kind.MultiCharLiteral) ∧
      t.text (SQUOTE :: ([['a'], ['b']].flatten ++ [])) = SQUOTE :: ([['a'], ['b']].flatten ++ [])) ∧
    tokenize [DQUOTE, 'a', 'b', BACKSLASH] 5 = some [⟨token_kind.String, 0, 4, 1, 1⟩] ∧
    tokenize [SQUOTE, 'a', 'b'] 4 = some [⟨token_kind.MultiCharLiteral, 0, 3, 1, 1⟩] :=
  ⟨(unterminated_literal_is_one_token [['a'], ['b']] [BACKSLASH] 5 (Or.inr rfl)).1
      (by decide) (by decide) (by decide),
    (unterminated_literal_is_one_token [['a'], ['b']] [] 4 (Or.inl rfl)).2
      (by decide) (by decide) (by decide),
    by decide, by decide⟩

/-- C16 (the code departs from it): on the buffer made of one newline the iteration leaves
the state as it is, so the character is never consumed, no `Unknown` token is emitted and
the loop does not end. -/
theorem bare_newline_is_never_consumed :
    (∀ fuel, loopBody [NEWLINE] fuel State.init = some State.init) ∧
    (∀ inner fuel, mainLoop [NEWLINE] inner fuel State.init = none) ∧
    ∀ fuel, tokenize [NEWLINE] fuel = none := by
  have hs := @mainLoop_stall [NEWLINE] State.init (by decide) (by decide)
  exact ⟨@loopBody_noBranch [NEWLINE] State.init (by decide), hs,
    fun fuel => by unfold tokenize; rw [hs]; rfl⟩

/-- C17 as stated fails: over a buffer that holds a NUL character the cursor can be before
the end of the buffer and `next` still leaves the index as it is. -/
theorem next_stays_on_embedded_NUL :
    ¬ (∀ (code : List Char) (cur : Cursor), cur.index < code.length →
        (cur.next code).2.index = cur.index + 1) := by
  intro h
  exact absurd (h nulSample Cursor.init (by decide)) (by decide)

/-- C17, amended: when the cursor is before the end of the buffer and the character at
`index` is not NUL, `next` returns that character, adds one to `index`, and sets
`(line, col)` to `(line + 1, 1)` on a newline and to `(line, col + 1)` otherwise, the
additions being those of `int`; when the character at `index` is NUL, or the cursor is at
the end of the buffer, `next` returns NUL and leaves `index`, `line` and `col` as they
are. -/
theorem cursor_next_contract (code : List Char) (cur : Cursor) :
    (∀ h : cur.index < code.length, code[cur.index] ≠ NUL →
      cur.next code = (code[cur.index],
        if code[cur.index] = NEWLINE then
          { index := cur.index + 1, line := wrapInt32 (cur.line + 1), col := 1 }
        else { index := cur.index + 1, line := cur.line, col := wrapInt32 (cur.col + 1) })) ∧
    (∀ h : cur.index < code.length, code[cur.index] = NUL → cur.next code = (NUL, cur)) ∧
    (code.length ≤ cur.index → cur.next code = (NUL, cur)) ∧
    (∀ x : Int, -2147483648 ≤ x → x < 2147483647 → wrapInt32 (x + 1) = x + 1) := by
  obtain ⟨h₁, h₂, h₃⟩ := next_spec code cur
  refine ⟨h₁, h₂, h₃, fun x hx₁ hx₂ => ?_⟩
  unfold wrapInt32
  omega

/-- Witness of the amended C17: on `ab`, newline, `c` from offset 2, on a NUL, and at the
end of the buffer. -/
theorem cursor_next_contract_witness :
    Cursor.next twoLines ⟨2, 1, 3⟩ = (NEWLINE, ⟨3, 2, 1⟩) ∧
    Cursor.next twoLines ⟨1, 1, 2⟩ = ('b', ⟨2, 1, 3⟩) ∧
    Cursor.next nulSample ⟨0, 1, 1⟩ = (NUL, ⟨0, 1, 1⟩) ∧
    Cursor.next twoLines ⟨4, 2, 2⟩ = (NUL, ⟨4, 2, 2⟩) ∧
    wrapInt32 (1 + 1) = 1 + 1 :=
  ⟨(cursor_next_contract twoLines ⟨2, 1, 3⟩).1 (by decide) (by decide),
    (cursor_next_contract twoLines ⟨1, 1, 2⟩).1 (by decide) (by decide),
    (cursor_next_contract nulSample ⟨0, 1, 1⟩).2.1 (by decide) (by decide),
    (cursor_next_contract twoLines ⟨4, 2, 2⟩).2.2.1 (by decide),
    (cursor_next_contract twoLines ⟨4, 2, 2⟩).2.2.2 1 (by decide) (by decide)⟩

/-- C18 as stated fails: over a buffer that holds a NUL character `skip(1)` can stop before
the end of the buffer without having advanced. -/
theorem skip_stops_on_embedded_NUL :
    ¬ (∀ (code : List Char) (cur : Cursor) (n : Nat),
        (cur.skip code n).2.index = cur.index + min n (code.length - cur.index)) := by
  intro h
  exact absurd (h nulSample Cursor.init 1) (by decide)

/-- C18, amended: `skip(n)` advances `index` by exactly the smaller of `n` and the number
of characters from `index` up to the first NUL character or the end of the buffer, and
returns the last character it consumed, or NUL if it consumed none; on a NUL-free buffer
the advance is `min(n, length - index)`. -/
theorem cursor_skip_contract (code : List Char) (cur : Cursor) (n : Nat) :
    (cur.skip code n).2.index = cur.index + min n (nonNulRun code cur.index) ∧
    (cur.skip code n).1 =
      (if min n (nonNulRun code cur.index) = 0 then NUL
       else code.getD (cur.index + min n (nonNulRun code cur.index) - 1) NUL) ∧
    ((∀ c ∈ code, c ≠ NUL) →
      (cur.skip code n).2.index = cur.index + min n (code.length - cur.index)) := by
  obtain ⟨h₁, h₂⟩ := skipLoop_spec code n NUL cur
  refine ⟨h₁, h₂, fun hn => ?_⟩
  rw [← nonNulRun_of_NUL_free code cur.index hn]
  exact h₁

/-- Witness of the amended C18: `skip(3)` from offset 2 of a four-character buffer stops
at the end, after two characters. -/
theorem cursor_skip_contract_witness :
    (Cursor.skip twoLines 3 ⟨2, 1, 3⟩).2.index = 2 + min 3 (twoLines.length - 2) ∧
    Cursor.skip twoLines 3 ⟨2, 1, 3⟩ = ('c', ⟨4, 2, 2⟩) ∧
    Cursor.skip twoLines 0 ⟨2, 1, 3⟩ = (NUL, ⟨2, 1, 3⟩) :=
  ⟨(cursor_skip_contract twoLines ⟨2, 1, 3⟩ 3).2.2 (by decide), by decide, by decide⟩

/-- C19 as stated fails: one call `skip(2147483647)` over `2^31 - 1` letters leaves `col`
at `-2147483648`, and over `2^31 - 1` newlines it takes `line` from `1` to
`-2147483648`. -/
theorem cursor_counters_wrap :
    (afterCalls (List.replicate 2147483647 'a') [CursorCall.skip 2147483647]).col
      = -2147483648 ∧
    (afterCalls (List.replicate 2147483647 NEWLINE) [CursorCall.skip 2147483647]).line
      = -2147483648 ∧
    Cursor.init.line = 1 := by
  obtain ⟨-, -, h₁⟩ := skip_whole_run 'a' (by decide) 2147483647
  obtain ⟨-, h₂, -⟩ := skip_whole_run NEWLINE (by decide) 2147483647
  have e₁ := colAt_replicate_append 2147483647 'a' [] (by decide)
  have e₂ := lineAt_replicate_append 2147483647 NEWLINE []
  rw [List.append_nil] at e₁ e₂
  rw [if_pos rfl] at e₂
  rw [e₁] at h₁
  rw [e₂] at h₂
  have hw : wrapInt32 ((2147483647 + 1 : Nat) : Int) = -2147483648 := by decide
  rw [hw] at h₁ h₂
  exact ⟨h₁, h₂, rfl⟩

/-- C19, amended: every cursor reached from the initial state by calls of `peek`, `next`
and `skip` has `index` at most the buffer length, and `line`, `col` equal to the 1-based
position of `index` reduced to the range of `int`; no call, from any state, decreases
`index`; over a buffer of fewer than `2^31 - 1` characters every reached cursor has
`line ≥ 1` and `col ≥ 1` and no call decreases its `line`. -/
theorem cursor_invariants (code : List Char) :
    (∀ calls : List CursorCall, (afterCalls code calls).index ≤ code.length ∧
      (afterCalls code calls).line = wrapInt32 (lineAt code (afterCalls code calls).index) ∧
      (afterCalls code calls).col = wrapInt32 (colAt code (afterCalls code calls).index)) ∧
    (∀ (cur : Cursor) (call : CursorCall), cur.index ≤ (call.run code cur).index) ∧
    (code.length < 2147483647 → ∀ calls : List CursorCall,
      1 ≤ (afterCalls code calls).line ∧ 1 ≤ (afterCalls code calls).col ∧
      ∀ call : CursorCall,
        (afterCalls code calls).line ≤ (call.run code (afterCalls code calls)).line) := by
  have hwf : ∀ calls : List CursorCall, (afterCalls code calls).WF code := fun calls =>
    foldl_run_WF code calls Cursor.init (init_WF code)
  refine ⟨hwf, fun cur call => (run_adv code call cur).1, fun hs calls => ?_⟩
  obtain ⟨h₁, h₂⟩ := WF_small (hwf calls) hs
  refine ⟨?_, ?_, fun call => run_line_le code call _ (hwf calls) hs⟩
  · rw [h₁]
    have : 1 ≤ lineAt code (afterCalls code calls).index := Nat.le_add_right _ _
    exact_mod_cast this
  · rw [h₂]
    have : 1 ≤ colAt code (afterCalls code calls).index := Nat.le_add_right _ _
    exact_mod_cast this

/-- Witness of the amended C19: `next` then `skip(2)` over `ab`, newline, `c`. -/
theorem cursor_invariants_witness :
    afterCalls twoLines [CursorCall.next, CursorCall.skip 2] = ⟨3, 2, 1⟩ ∧
    (1 ≤ (afterCalls twoLines [CursorCall.next, CursorCall.skip 2]).line ∧
      1 ≤ (afterCalls twoLines [CursorCall.next, CursorCall.skip 2]).col ∧
      ∀ call : CursorCall,
        (afterCalls twoLines [CursorCall.next, CursorCall.skip 2]).line
          ≤ (call.run twoLines (afterCalls twoLines [CursorCall.next, CursorCall.skip 2])).line) :=
  ⟨by decide,
    (cursor_invariants twoLines).2.2 (by decide) [CursorCall.next, CursorCall.skip 2]⟩

/-- C20: in a state whose cursor is before the end of the buffer and whose current
character is neither space nor tab, not a double quote, not a single quote, not a decimal
digit and not a `/` followed by `/` or `*`, one iteration of the loop body changes nothing
(`index`, `line`, `col` and the tokens stay as they are), so the loop never ends from it. -/
theorem unclassified_character_stalls (code : List Char) (st : State)
    (he : st.cur.eof code = false)
    (h₁ : isblank (st.cur.peek code 0) = false)
    (h₂ : st.cur.peek code 0 ≠ DQUOTE) (h₃ : st.cur.peek code 0 ≠ SQUOTE)
    (h₄ : isdigit (st.cur.peek code 0) = false)
    (h₅ : ¬ (st.cur.peek code 0 = '/' ∧
      (st.cur.peek code 1 = '/' ∨ st.cur.peek code 1 = '*'))) :
    (∀ fuel, loopBody code fuel st = some st) ∧
    (∀ inner n, runN code inner n st = some st) ∧
    (∀ inner fuel, mainLoop code inner fuel st = none) := by
  have hnb : noBranch code st.cur = true := by
    simp only [noBranch, h₁, h₄, Bool.and_eq_true, Bool.not_eq_true', bne_iff_ne, ne_eq,
      Bool.and_eq_false_iff, beq_eq_false_iff_ne, Bool.not_false, true_and, and_true]
    refine ⟨⟨⟨?_, ?_⟩, h₂⟩, h₃⟩
    · by_cases h : st.cur.peek code 0 = '/'
      · exact Or.inr (fun h' => h₅ ⟨h, Or.inl h'⟩)
      · exact Or.inl h
    · by_cases h : st.cur.peek code 0 = '/'
      · exact Or.inr (fun h' => h₅ ⟨h, Or.inr h'⟩)
      · exact Or.inl h
  exact ⟨loopBody_noBranch hnb, runN_stall hnb, mainLoop_stall he hnb⟩

/-- Witness of C20: after the comment `//x` the cursor stands on a newline and stays. -/
theorem unclassified_character_stalls_witness :
    (∀ fuel, loopBody ['/', '/', 'x', NEWLINE, 'y'] fuel
        ⟨⟨3, 1, 4⟩, [⟨token_kind.Comment, 0, 3, 1, 1⟩]⟩
      = some ⟨⟨3, 1, 4⟩, [⟨token_kind.Comment, 0, 3, 1, 1⟩]⟩) ∧
    (∀ inner n, runN ['/', '/', 'x', NEWLINE, 'y'] inner n
        ⟨⟨3, 1, 4⟩, [⟨token_kind.Comment, 0, 3, 1, 1⟩]⟩
      = some ⟨⟨3, 1, 4⟩, [⟨token_kind.Comment, 0, 3, 1, 1⟩]⟩) ∧
    (∀ inner fuel, mainLoop ['/', '/', 'x', NEWLINE, 'y'] inner fuel
        ⟨⟨3, 1, 4⟩, [⟨token_kind.Comment, 0, 3, 1, 1⟩]⟩ = none) :=
  unclassified_character_stalls ['/', '/', 'x', NEWLINE, 'y']
    ⟨⟨3, 1, 4⟩, [⟨token_kind.Comment, 0, 3, 1, 1⟩]⟩
    (by decide) (by decide) (by decide) (by decide) (by decide) (by decide)

end Suprac
